import Mathlib

/-!
Verification of the NeonPlug airport/frequency normalization pipeline
(`airportdownload.py`).

The script is a single forward pass:
1. build a dict of airports from airport rows (ICAO code, coordinates
   rounded to 3 decimal places),
2. attach validated VHF frequencies (parse, kHz→MHz rescale above 500,
   inclusive band check 108.0–137.0, round to integer kHz),
3. per airport, deduplicate frequencies by kHz preferring dict (typed)
   entries over bare numbers, sort ascending, and compact to
   `[kHz, mappedType]` arrays via the static `TYPE_MAP`,
4. keep only airports with at least one surviving frequency.

Python `float` values are modeled as exact rationals.  The decimal→binary
conversion performed by `float(s)` is observable (e.g. `float("33.9425")`
is slightly above 33.9425, which decides how `round(_, 3)` ties resolve),
so string parsing is modeled by `toDouble`, the IEEE-754 binary64
round-to-nearest-even conversion (exact for all normal-range inputs that
occur here).  Float arithmetic after parsing is binary64 as well: the
division `f / 1000` and the multiplication `f * 1000` are `fdiv`/`fmul`,
which re-round the exact result through `toDouble`.  This re-rounding is
observable: for the parsed float of "118.0005" the exact product
`f * 1000` lies just above the 118000.5 tie (so exact rounding would give
118001), but the binary64 product lands exactly on 118000.5 and banker's
rounding gives 118000 — which is what the program emits.
Python `round` (banker's rounding) is `rndHalfEven`; `round(x, 3)` is
`pround3`, rounding the exact value of the float `x` at the third decimal
place (CPython rounds the decimal expansion of the double directly, not a
scaled float product), ties to even.  Python `str.strip()` removes the
full Unicode whitespace set (`Py_UNICODE_ISSPACE`), not just ASCII
whitespace; `isPySpace` lists those code points.
-/

namespace AirportDownload

/-- Python `round` on a rational: nearest integer, ties to even. -/
def rndHalfEven (q : ℚ) : ℤ :=
  if q - ⌊q⌋ < 1/2 then ⌊q⌋
  else if 1/2 < q - ⌊q⌋ then ⌊q⌋ + 1
  else if 2 ∣ ⌊q⌋ then ⌊q⌋ else ⌊q⌋ + 1

/-- Number of binary digits of `n`, by fuel recursion (kernel-computable). -/
def bitLenAux : Nat → Nat → Nat
  | 0, _ => 0
  | fuel+1, n => if n = 0 then 0 else bitLenAux fuel (n / 2) + 1

/-- Binary length: `2 ^ (bitLen n - 1) ≤ n < 2 ^ bitLen n` for `n > 0`. -/
def bitLen (n : Nat) : Nat := bitLenAux n n

/-- Binary exponent of a positive rational: `2 ^ qexp q ≤ q < 2 ^ (qexp q + 1)`. -/
def qexp (q : ℚ) : ℤ :=
  if (2:ℚ) ^ ((bitLen q.num.natAbs : ℤ) - (bitLen q.den : ℤ)) ≤ q
  then (bitLen q.num.natAbs : ℤ) - (bitLen q.den : ℤ)
  else (bitLen q.num.natAbs : ℤ) - (bitLen q.den : ℤ) - 1

/-- IEEE-754 binary64 round-to-nearest-even of a rational, as an exact
rational (normal range; overflow/subnormals do not occur in this data).
Models CPython's decimal-string → `float` conversion. -/
def toDouble (q : ℚ) : ℚ :=
  if 0 < q then
    ((rndHalfEven (q * 2 ^ ((52:ℤ) - qexp q)) : ℤ) : ℚ) * 2 ^ (qexp q - (52:ℤ))
  else if q < 0 then
    -(((rndHalfEven (-q * 2 ^ ((52:ℤ) - qexp (-q))) : ℤ) : ℚ) * 2 ^ (qexp (-q) - (52:ℤ)))
  else 0

/-- Python `round(x, 3)` on the exact value of a float: decimal rounding,
ties to even (the re-conversion to binary64 is dropped: it is invisible in
the serialized output, which prints the shortest decimal). -/
def pround3 (x : ℚ) : ℚ := ((rndHalfEven (x * 1000) : ℤ) : ℚ) / 1000

/-! ### Basic facts about `rndHalfEven` -/

theorem rndHalfEven_bounds (q : ℚ) :
    q - 1/2 ≤ (rndHalfEven q : ℚ) ∧ (rndHalfEven q : ℚ) ≤ q + 1/2 := by
  have h1 : ((⌊q⌋ : ℤ) : ℚ) ≤ q := Int.floor_le q
  have h2 : q < (⌊q⌋ : ℤ) + 1 := Int.lt_floor_add_one q
  unfold rndHalfEven
  split_ifs <;> constructor <;> push_cast <;> linarith

theorem rndHalfEven_eq_of (k : ℤ) (q : ℚ)
    (h1 : (k:ℚ) - 1/2 < q) (h2 : q < (k:ℚ) + 1/2) : rndHalfEven q = k := by
  rcases le_or_lt (k:ℚ) q with hk | hk
  · have hf : ⌊q⌋ = k := by
      rw [Int.floor_eq_iff]
      exact ⟨hk, by linarith⟩
    have hc : q - ((⌊q⌋ : ℤ) : ℚ) < 1/2 := by rw [hf]; linarith
    unfold rndHalfEven
    rw [if_pos hc, hf]
  · have hf : ⌊q⌋ = k - 1 := by
      rw [Int.floor_eq_iff]
      constructor <;> push_cast <;> linarith
    have hlt : ¬ (q - ((⌊q⌋ : ℤ) : ℚ) < 1/2) := by rw [hf]; push_cast; linarith
    have hgt : 1/2 < q - ((⌊q⌋ : ℤ) : ℚ) := by rw [hf]; push_cast; linarith
    unfold rndHalfEven
    rw [if_neg hlt, if_pos hgt, hf]
    omega

theorem rndHalfEven_intCast (k : ℤ) : rndHalfEven (k:ℚ) = k :=
  rndHalfEven_eq_of k _ (by norm_num) (by norm_num)

theorem rndHalfEven_mem (a b : ℤ) (q : ℚ) (h1 : (a:ℚ) ≤ q) (h2 : q ≤ (b:ℚ)) :
    a ≤ rndHalfEven q ∧ rndHalfEven q ≤ b := by
  obtain ⟨l, u⟩ := rndHalfEven_bounds q
  have ha : a < rndHalfEven q + 1 := by
    exact_mod_cast (show (a:ℚ) < (rndHalfEven q : ℚ) + 1 by linarith)
  have hb : rndHalfEven q < b + 1 := by
    exact_mod_cast (show (rndHalfEven q : ℚ) < (b:ℚ) + 1 by linarith)
  omega

/-! ### Facts about `bitLen`, `qexp`, `toDouble` -/

theorem bitLenAux_zero (fuel : Nat) : bitLenAux fuel 0 = 0 := by
  cases fuel <;> simp [bitLenAux]

theorem bitLenAux_spec :
    ∀ fuel n, 0 < n → n ≤ fuel →
      n < 2 ^ bitLenAux fuel n ∧ 2 ^ bitLenAux fuel n ≤ 2 * n := by
  intro fuel
  induction fuel with
  | zero => intro n h1 h2; omega
  | succ f ih =>
    intro n h1 h2
    have hne : ¬ n = 0 := by omega
    rw [bitLenAux, if_neg hne]
    rcases Nat.lt_or_ge n 2 with hn | hn
    · have hn1 : n = 1 := by omega
      subst hn1
      simp [bitLenAux_zero]
    · have hpos : 0 < n / 2 := Nat.div_pos hn (by norm_num)
      have hle : n / 2 ≤ f := by omega
      obtain ⟨ha, hb⟩ := ih (n / 2) hpos hle
      rw [pow_succ]
      omega

theorem bitLen_spec (n : Nat) (h : 0 < n) :
    n < 2 ^ bitLen n ∧ 2 ^ bitLen n ≤ 2 * n :=
  bitLenAux_spec n n h le_rfl

theorem bitLen_pos (n : Nat) (h : 0 < n) : 1 ≤ bitLen n := by
  by_contra hc
  have h0 : bitLen n = 0 := by omega
  have := (bitLen_spec n h).1
  rw [h0] at this
  omega

theorem qexp_spec (q : ℚ) (hq : 0 < q) :
    (2:ℚ) ^ qexp q ≤ q ∧ q < (2:ℚ) ^ (qexp q + 1) := by
  have hnum : 0 < q.num := Rat.num_pos.mpr hq
  have hnpos : 0 < q.num.natAbs := Int.natAbs_pos.mpr (ne_of_gt hnum)
  have hdpos : 0 < q.den := q.den_pos
  obtain ⟨nu, nl⟩ := bitLen_spec q.num.natAbs hnpos
  obtain ⟨du, dl⟩ := bitLen_spec q.den hdpos
  have KEY1 : ((q.num.natAbs : ℕ) : ℚ) < (2:ℚ) ^ ((bitLen q.num.natAbs : ℕ) : ℤ) := by
    rw [zpow_natCast]; exact_mod_cast nu
  have KEY2 : (2:ℚ) ^ ((bitLen q.num.natAbs : ℕ) : ℤ) ≤ 2 * ((q.num.natAbs : ℕ) : ℚ) := by
    rw [zpow_natCast]; exact_mod_cast nl
  have KEY3 : ((q.den : ℕ) : ℚ) < (2:ℚ) ^ ((bitLen q.den : ℕ) : ℤ) := by
    rw [zpow_natCast]; exact_mod_cast du
  have KEY4 : (2:ℚ) ^ ((bitLen q.den : ℕ) : ℤ) ≤ 2 * ((q.den : ℕ) : ℚ) := by
    rw [zpow_natCast]; exact_mod_cast dl
  have hdq : (0:ℚ) < ((q.den : ℕ) : ℚ) := by exact_mod_cast hdpos
  have hqd : q * ((q.den : ℕ) : ℚ) = ((q.num.natAbs : ℕ) : ℚ) := by
    have h1 : ((q.num : ℤ) : ℚ) / ((q.den : ℕ) : ℚ) = q := Rat.num_div_den q
    have h3 : ((q.num : ℤ) : ℚ) = ((q.num.natAbs : ℕ) : ℚ) := by
      rw [Int.cast_natAbs]
      exact_mod_cast (abs_of_nonneg (le_of_lt hnum)).symm
    have h4 : q * ((q.den : ℕ) : ℚ) = ((q.num : ℤ) : ℚ) :=
      (eq_div_iff (ne_of_gt hdq)).mp h1.symm
    rw [h4, h3]
  set a : ℤ := (bitLen q.num.natAbs : ℤ) with ha
  set b : ℤ := (bitLen q.den : ℤ) with hb
  have G1 : q < (2:ℚ) ^ (a - b + 1) := by
    have hbp : (0:ℚ) < (2:ℚ) ^ b := by positivity
    rw [show a - b + 1 = a + 1 - b by ring, zpow_sub₀ two_ne_zero, lt_div_iff₀ hbp]
    have step1 : q * (2:ℚ) ^ b ≤ q * (2 * ((q.den : ℕ) : ℚ)) :=
      mul_le_mul_of_nonneg_left KEY4 (le_of_lt hq)
    have step2 : q * (2 * ((q.den : ℕ) : ℚ)) = 2 * ((q.num.natAbs : ℕ) : ℚ) := by
      rw [show q * (2 * ((q.den : ℕ) : ℚ)) = 2 * (q * ((q.den : ℕ) : ℚ)) by ring, hqd]
    have step3 : (2:ℚ) ^ (a + 1) = 2 * (2:ℚ) ^ a := by
      rw [zpow_add₀ two_ne_zero, zpow_one]; ring
    rw [step3]
    calc q * (2:ℚ) ^ b ≤ 2 * ((q.num.natAbs : ℕ) : ℚ) := by rw [← step2]; exact step1
      _ < 2 * (2:ℚ) ^ a := by linarith
  have G2 : (2:ℚ) ^ (a - b - 1) < q := by
    have hbp : (0:ℚ) < (2:ℚ) ^ b := by positivity
    rw [show a - b - 1 = a - 1 - b by ring, zpow_sub₀ two_ne_zero, div_lt_iff₀ hbp]
    have e1 : (2:ℚ) ^ (a - 1) = (2:ℚ) ^ a / 2 := by
      rw [zpow_sub₀ two_ne_zero, zpow_one]
    have h2 : (2:ℚ) ^ (a - 1) ≤ ((q.num.natAbs : ℕ) : ℚ) := by
      rw [e1]; linarith
    have h3 : q * ((q.den : ℕ) : ℚ) < q * (2:ℚ) ^ b :=
      mul_lt_mul_of_pos_left KEY3 hq
    calc (2:ℚ) ^ (a - 1) ≤ ((q.num.natAbs : ℕ) : ℚ) := h2
      _ = q * ((q.den : ℕ) : ℚ) := hqd.symm
      _ < q * (2:ℚ) ^ b := h3
  unfold qexp
  rw [← ha, ← hb]
  split_ifs with h
  · exact ⟨h, G1⟩
  · constructor
    · exact le_of_lt G2
    · rw [show a - b - 1 + 1 = a - b by ring]
      exact lt_of_not_le h

theorem qexp_eq_of (q : ℚ) (e : ℤ)
    (h1 : (2:ℚ) ^ e ≤ q) (h2 : q < (2:ℚ) ^ (e + 1)) : qexp q = e := by
  have hq : 0 < q := lt_of_lt_of_le (by positivity) h1
  obtain ⟨l, u⟩ := qexp_spec q hq
  by_contra hne
  rcases lt_or_gt_of_ne hne with hlt | hgt
  · have hmono : (2:ℚ) ^ (qexp q + 1) ≤ (2:ℚ) ^ e := by
      apply zpow_le_zpow_right₀ one_le_two
      omega
    linarith
  · have hmono : (2:ℚ) ^ (e + 1) ≤ (2:ℚ) ^ (qexp q) := by
      apply zpow_le_zpow_right₀ one_le_two
      omega
    linarith

theorem toDouble_pos_eq (q : ℚ) (hq : 0 < q) :
    toDouble q =
      ((rndHalfEven (q * 2 ^ ((52:ℤ) - qexp q)) : ℤ) : ℚ) * 2 ^ (qexp q - (52:ℤ)) := by
  unfold toDouble
  rw [if_pos hq]

/-- Compute `toDouble` from a binary-exponent sandwich and the rounded
mantissa; this is how all concrete double values are established. -/
theorem toDouble_eval (q : ℚ) (e m : ℤ)
    (h1 : (2:ℚ) ^ e ≤ q) (h2 : q < (2:ℚ) ^ (e + 1))
    (h3 : rndHalfEven (q * 2 ^ ((52:ℤ) - e)) = m) :
    toDouble q = (m : ℚ) * 2 ^ (e - (52:ℤ)) := by
  have hq : 0 < q := lt_of_lt_of_le (by positivity) h1
  rw [toDouble_pos_eq q hq, qexp_eq_of q e h1 h2, h3]

theorem toDouble_neg_eq (q : ℚ) : toDouble (-q) = -toDouble q := by
  rcases lt_trichotomy q 0 with h | h | h
  · have h1 : 0 < -q := by linarith
    unfold toDouble
    rw [if_pos h1, if_neg (lt_asymm h), if_pos h, neg_neg]
  · subst h
    simp [toDouble]
  · have h1 : ¬ 0 < -q := by linarith
    have h2 : -q < 0 := by linarith
    unfold toDouble
    rw [if_pos h, if_neg h1, if_pos h2, neg_neg]

theorem toDouble_bounds (q : ℚ) (hq : 0 < q) :
    q - 2 ^ (qexp q - 53) ≤ toDouble q ∧ toDouble q ≤ q + 2 ^ (qexp q - 53) := by
  obtain ⟨l, u⟩ := rndHalfEven_bounds (q * 2 ^ ((52:ℤ) - qexp q))
  have hp : (0:ℚ) < 2 ^ (qexp q - (52:ℤ)) := by positivity
  have key : q * 2 ^ ((52:ℤ) - qexp q) * 2 ^ (qexp q - (52:ℤ)) = q := by
    rw [mul_assoc, ← zpow_add₀ two_ne_zero]
    norm_num
  have half : (1/2 : ℚ) * 2 ^ (qexp q - (52:ℤ)) = 2 ^ (qexp q - 53) := by
    rw [show qexp q - 53 = -1 + (qexp q - 52) by ring, zpow_add₀ two_ne_zero]
    norm_num
  rw [toDouble_pos_eq q hq]
  constructor
  · have step := mul_le_mul_of_nonneg_right l (le_of_lt hp)
    rw [sub_mul, key, half] at step
    exact step
  · have step := mul_le_mul_of_nonneg_right u (le_of_lt hp)
    rw [add_mul, key, half] at step
    exact step

theorem qexp_le_of (x : ℚ) (hx : 0 < x) (E : ℤ) (hB : x < (2:ℚ) ^ (E + 1)) :
    qexp x ≤ E := by
  by_contra h
  have hE : E + 1 ≤ qexp x := by omega
  have hmono : (2:ℚ) ^ (E + 1) ≤ (2:ℚ) ^ qexp x := zpow_le_zpow_right₀ one_le_two hE
  have hl := (qexp_spec x hx).1
  linarith

/-- Error bound for the binary64 conversion from an upper bound on the
magnitude alone: if `x < 2 ^ (E + 1)` then the rounding error is at most
`2 ^ (E - 53)` (half an ulp at that magnitude). -/
theorem toDouble_close_of (x : ℚ) (hx : 0 < x) (E : ℤ) (hB : x < (2:ℚ) ^ (E + 1)) :
    x - 2 ^ (E - 53) ≤ toDouble x ∧ toDouble x ≤ x + 2 ^ (E - 53) := by
  obtain ⟨l, u⟩ := toDouble_bounds x hx
  have he : qexp x - 53 ≤ E - 53 := by
    have := qexp_le_of x hx E hB
    omega
  have hmono : (2:ℚ) ^ (qexp x - 53) ≤ (2:ℚ) ^ (E - 53) := zpow_le_zpow_right₀ one_le_two he
  constructor <;> linarith

/-- Rounding a binary64 value to an integer: when the half-ulp error band
around the exact value stays strictly inside `(k - 1/2, k + 1/2)`, the
re-rounded float still rounds to `k`. -/
theorem rnd_toDouble_eq (x : ℚ) (k E : ℤ) (hx : 0 < x)
    (hB : x < (2:ℚ) ^ (E + 1))
    (h1 : (k:ℚ) - 1/2 < x - (2:ℚ) ^ (E - 53))
    (h2 : x + (2:ℚ) ^ (E - 53) < (k:ℚ) + 1/2) :
    rndHalfEven (toDouble x) = k := by
  obtain ⟨l, u⟩ := toDouble_close_of x hx E hB
  exact rndHalfEven_eq_of k _ (by linarith) (by linarith)

/-! ### The frequency validator (lines 53–57 of `airportdownload.py`) -/

def VHF_MIN : ℚ := 108
def VHF_MAX : ℚ := 137

/-- Binary64 division: IEEE-754 operations are correctly rounded, so the
float quotient is the round-to-nearest-even of the exact quotient. -/
def fdiv (a b : ℚ) : ℚ := toDouble (a / b)

/-- Binary64 multiplication: round-to-nearest-even of the exact product. -/
def fmul (a b : ℚ) : ℚ := toDouble (a * b)

/-- Lines 53–57: `f = float(freq_raw); if f > 500: f = f / 1000;
if VHF_MIN <= f <= VHF_MAX: freq_khz = int(round(f * 1000))`.
The argument is the already-parsed float value; the division and the
multiplication are binary64 operations; `none` means no entry is
produced. -/
def validateFreq (v : ℚ) : Option ℤ :=
  if VHF_MIN ≤ (if 500 < v then fdiv v 1000 else v) ∧
      (if 500 < v then fdiv v 1000 else v) ≤ VHF_MAX then
    some (rndHalfEven (fmul (if 500 < v then fdiv v 1000 else v) 1000))
  else none

/-! ### Strings: Python `.strip()` and the `TYPE_MAP` lookup -/

/-- The characters removed by Python `str.strip()`: exactly the code
points satisfying CPython's `Py_UNICODE_ISSPACE` — U+0009–U+000D,
U+001C–U+001F, the space U+0020, U+0085, U+00A0, U+1680, U+2000–U+200A,
U+2028, U+2029, U+202F, U+205F and U+3000. -/
def isPySpace (c : Char) : Bool :=
  decide ((9 ≤ c.toNat ∧ c.toNat ≤ 13) ∨ c.toNat = 32 ∨
    (28 ≤ c.toNat ∧ c.toNat ≤ 31) ∨ c.toNat = 0x85 ∨ c.toNat = 0xa0 ∨
    c.toNat = 0x1680 ∨ (0x2000 ≤ c.toNat ∧ c.toNat ≤ 0x200a) ∨
    c.toNat = 0x2028 ∨ c.toNat = 0x2029 ∨ c.toNat = 0x202f ∨
    c.toNat = 0x205f ∨ c.toNat = 0x3000)

/-- Python `s.strip()`. -/
def pyStrip (s : String) : String :=
  ⟨((s.data.dropWhile isPySpace).reverse.dropWhile isPySpace).reverse⟩

/-- Lines 92–102: the static label → short-code table. -/
def TYPE_MAP : List (String × String) :=
  [("CTAF", "C"), ("UNICOM", "U"), ("TOWER", "T"), ("GROUND", "G"),
   ("APP", "A"), ("ATIS", "I"), ("DEP", "D"), ("MISC", "M"),
   ("ASOW", "S"), ("FSS", "F"), ("RADIO", "R"), ("CLD", "L"),
   ("INFO", "N"), ("AFIS", "Z"), ("A/G", "Y"), ("OPS", "O"),
   ("RADAR", "X"), ("APRON", "P"), ("ATF", "H"), ("RCO", "Q"),
   ("TRAFFIC", "V"), ("TMA", "W"), ("ASOS", "B"), ("PAL", "J"),
   ("AAS", "K"), ("DIR", "E"), ("GCA", "Y"), ("A/A", "AA"),
   ("FCC", "FC"), ("ACP", "AC"), ("TIBA", "TB"), ("A/D", "AD"),
   ("ACC", "CC"), ("ARTC", "RT")]

/-- First-match association lookup (Python `dict.get` on a literal dict
with distinct keys). -/
def lookupTM : List (String × String) → String → Option String
  | [], _ => none
  | (k, v) :: rest, s => if k = s then some v else lookupTM rest s

/-- Lines 89–103: `if freq_type: freq_type = TYPE_MAP.get(freq_type, freq_type)`. -/
def mapTypeCode (t : String) : String :=
  if t ≠ "" then (lookupTM TYPE_MAP t).getD t else t

/-- The Type Code Mapper component: label strip (line 50) followed by the
table lookup with pass-through default (line 103). -/
def typeCodeMapper (s : String) : String := mapTypeCode (pyStrip s)

/-! ### Frequency entries and the per-airport deduplication step -/

/-- One element of an airport's `"f"` list before compaction: either a bare
kHz number (line 62) or a `{"f": khz, "t": type}` dict (line 60). -/
inductive FreqEntry where
  | plain (khz : ℤ)
  | typed (khz : ℤ) (t : String)
deriving DecidableEq

def FreqEntry.khz : FreqEntry → ℤ
  | .plain k => k
  | .typed k _ => k

/-- `isinstance(freq, dict)`. -/
def FreqEntry.isTyped : FreqEntry → Bool
  | .plain _ => false
  | .typed _ _ => true

/-- Lookup in the `freq_dict` association list (Python `freq_key in
freq_dict` / `freq_dict[freq_key]`). -/
def findVal : List (ℤ × FreqEntry) → ℤ → Option FreqEntry
  | [], _ => none
  | (k, v) :: d, j => if k = j then some v else findVal d j

/-- Python dict assignment `freq_dict[key] = e`: replace in place if the
key exists, else append (insertion order preserved). -/
def setKey : List (ℤ × FreqEntry) → ℤ → FreqEntry → List (ℤ × FreqEntry)
  | [], k, e => [(k, e)]
  | (k', e') :: d, k, e => if k' = k then (k, e) :: d else (k', e') :: setKey d k e

/-- Lines 71–81: one iteration of the dedup loop over `airport["f"]`. -/
def stepDedup (d : List (ℤ × FreqEntry)) (e : FreqEntry) : List (ℤ × FreqEntry) :=
  match e with
  | .typed k t =>
    match findVal d k with
    | none => setKey d k (.typed k t)
    | some old => if old.isTyped then d else setKey d k (.typed k t)
  | .plain k =>
    match findVal d k with
    | none => setKey d k (.plain k)
    | some _ => d

def buildDict (l : List FreqEntry) : List (ℤ × FreqEntry) :=
  l.foldl stepDedup []

/-- Sort key of line 84: `x["f"] if isinstance(x, dict) else x`. -/
def freqLE (a b : FreqEntry) : Bool := a.khz ≤ b.khz

/-- Lines 70–84: build `freq_dict` from the entry list and return its
values sorted ascending by kHz. -/
def dedupStep (l : List FreqEntry) : List FreqEntry :=
  ((buildDict l).map Prod.snd).mergeSort freqLE

/-- One element of the compact output list: a bare number (line 108) or a
`[khz, typeCode]` array (line 105). -/
inductive OutEntry where
  | num (khz : ℤ)
  | arr (khz : ℤ) (t : String)
deriving DecidableEq

/-- Lines 86–108: compaction of one deduplicated entry, applying the type
mapping to dict entries. -/
def compactEntry : FreqEntry → OutEntry
  | .plain k => .num k
  | .typed k t => .arr k (mapTypeCode t)

/-- Lines 69–110: the whole per-airport dedup + compaction. -/
def compactFreqs (l : List FreqEntry) : List OutEntry :=
  (dedupStep l).map compactEntry

/-! ### Rows, records and the pipeline -/

/-- The parse outcome of one raw numeric CSV cell.  `absent` covers both a
missing key and the empty string (both falsy in the `if` guards); `bad` is
a non-empty string on which `float()` raises; `val q` is a string that
parses to the decimal value `q` (exact, before binary64 conversion). -/
inductive RawNum where
  | absent
  | bad
  | val (q : ℚ)
deriving DecidableEq

/-- Truthiness of the raw cell in Python (`if lat and lon`, `if freq_raw`). -/
def truthy : RawNum → Bool
  | .absent => false
  | _ => true

/-- `float(s)`: decimal string → binary64, `none` on ValueError. -/
def parseFloat : RawNum → Option ℚ
  | .val q => some (toDouble q)
  | _ => none

/-- One row of the airport CSV (fields `ICAO`, `lat`, `lon`; a missing
`ICAO` is the empty string, which is equally falsy). -/
structure ARow where
  icao : String
  lat : RawNum
  lon : RawNum

/-- One row of the frequency CSV (fields `airport`, `frequency`, `type`;
a missing `type` defaults to `""`). -/
structure FRow where
  airport : String
  frequency : RawNum
  typ : String

/-- An entry of the `airports` dict (lines 35–39). -/
structure Acc where
  c : String
  l : ℚ × ℚ
  f : List FreqEntry
deriving DecidableEq

/-- A final output record, after compaction of the frequency list. -/
structure OutRec where
  c : String
  l : ℚ × ℚ
  f : List OutEntry
deriving DecidableEq

/-- `airports[icao]` (dict lookup by key; the key of a record is its `c`). -/
def lookupAcc : List Acc → String → Option Acc
  | [], _ => none
  | b :: d, i => if b.c = i then some b else lookupAcc d i

/-- `airports[icao] = rec`: replace in place, else append. -/
def setAcc : List Acc → String → Acc → List Acc
  | [], _, a => [a]
  | b :: d, i, a => if b.c = i then a :: d else b :: setAcc d i a

/-- `airports[icao]["f"].append(e)`. -/
def appendFreq (d : List Acc) (i : String) (e : FreqEntry) : List Acc :=
  d.map fun a => if a.c = i then { a with f := a.f ++ [e] } else a

/-- Lines 30–39: the record built from one airport row, `none` when the
row is skipped (falsy field or float() failure, line 33 / lines 40–41). -/
def rowRec (r : ARow) : Option Acc :=
  if r.icao ≠ "" ∧ truthy r.lat ∧ truthy r.lon then
    match parseFloat r.lat, parseFloat r.lon with
    | some la, some lo => some ⟨r.icao, (pround3 la, pround3 lo), []⟩
    | _, _ => none
  else none

/-- Lines 29–41: one iteration of the airport-row loop. -/
def stepAirport (d : List Acc) (r : ARow) : List Acc :=
  match rowRec r with
  | some a => setAcc d r.icao a
  | none => d

def buildAirports (rows : List ARow) : List Acc :=
  rows.foldl stepAirport []

/-- Lines 47–65: one iteration of the frequency-row loop. -/
def stepFreq (d : List Acc) (r : FRow) : List Acc :=
  if (lookupAcc d r.airport).isSome ∧ truthy r.frequency then
    match parseFloat r.frequency with
    | none => d
    | some v =>
      match validateFreq v with
      | none => d
      | some k =>
        appendFreq d r.airport
          (if pyStrip r.typ ≠ "" then .typed k (pyStrip r.typ) else .plain k)
  else d

def attachFreqs (d : List Acc) (rows : List FRow) : List Acc :=
  rows.foldl stepFreq d

/-- Lines 69–110 applied to one airport record. -/
def finalizeRec (a : Acc) : OutRec :=
  ⟨a.c, a.l, compactFreqs a.f⟩

/-- Lines 69–113: dedup/compact every record, then keep those with a
non-empty frequency list. -/
def finalize (d : List Acc) : List OutRec :=
  (d.map finalizeRec).filter fun a => !a.f.isEmpty

/-- The whole pipeline, from parsed CSV rows to the serialized list. -/
def pipeline (aRows : List ARow) (fRows : List FRow) : List OutRec :=
  finalize (attachFreqs (buildAirports aRows) fRows)

/-! ### Spec-side notions used to state the claims -/

/-- An entry that "carries a non-empty type code". -/
def FreqEntry.hasTypeCode : FreqEntry → Bool
  | .plain _ => false
  | .typed _ t => t ≠ ""

/-- First typed entry (dict entry) at a given kHz value, in input order. -/
def firstTypedAt (l : List FreqEntry) (k : ℤ) : Option FreqEntry :=
  l.find? fun e => e.isTyped && e.khz = k

/-- Is any entry of `l` at kHz value `k`? -/
def anyAt (l : List FreqEntry) (k : ℤ) : Bool :=
  l.any fun e => e.khz = k

/-- The surviving entry for one kHz group, as the code computes it: the
first dict entry if any, else the bare number. -/
def codeSurv (l : List FreqEntry) (k : ℤ) : Option FreqEntry :=
  match firstTypedAt l k with
  | some e => some e
  | none => if anyAt l k then some (.plain k) else none

/-- The surviving entry for one kHz group, as the spec words it: the first
entry carrying a non-empty type code if any, else the untyped entry. -/
def claimSurvivor (l : List FreqEntry) (k : ℤ) : FreqEntry :=
  (l.find? fun e => e.hasTypeCode && e.khz = k).getD (.plain k)

/-- Apply the Type Code Mapper to one (already stripped) entry. -/
def entryMap : FreqEntry → FreqEntry
  | .plain k => .plain k
  | .typed k t => .typed k (mapTypeCode t)

/-- Compaction without the type-mapping step (for the spec-ordered
variant, whose entries are mapped before deduplication). -/
def compactEntryPlain : FreqEntry → OutEntry
  | .plain k => .num k
  | .typed k t => .arr k t

/-- The spec-ordered variant: map type codes on each observation first,
then deduplicate, then compact without further mapping. -/
def specOrderFreqs (l : List FreqEntry) : List OutEntry :=
  (dedupStep (l.map entryMap)).map compactEntryPlain

/-- A defective airport row: empty/missing ICAO, missing coordinate, or an
unparseable coordinate.  Exactly the rows lines 33/40–41 skip. -/
def badARow (r : ARow) : Prop :=
  r.icao = "" ∨ parseFloat r.lat = none ∨ parseFloat r.lon = none

/-- A defective frequency observation relative to the airports dict `d`:
unmatched join key, missing/empty or unparseable frequency, or an
out-of-band value.  Exactly the observations lines 51/56/64–65 skip. -/
def badFRow (d : List Acc) (r : FRow) : Prop :=
  lookupAcc d r.airport = none ∨
    match r.frequency with
    | .absent => True
    | .bad => True
    | .val q => validateFreq (toDouble q) = none

/-! ### Concrete binary64 values used by the end-to-end scenario -/

theorem toDouble_339425 :
    toDouble (33.9425 : ℚ) = 4776982198500721 / 140737488355328 := by
  have h := toDouble_eval (33.9425 : ℚ) 5 4776982198500721 (by norm_num) (by norm_num)
    (by norm_num [rndHalfEven])
  rw [h]
  norm_num

theorem toDouble_1198 :
    toDouble (119.8 : ℚ) = 8430175552484147 / 70368744177664 := by
  have h := toDouble_eval (119.8 : ℚ) 6 8430175552484147 (by norm_num) (by norm_num)
    (by norm_num [rndHalfEven])
  rw [h]
  norm_num

theorem toDouble_118408 :
    toDouble (118.408 : ℚ) = 8332222260588839 / 70368744177664 := by
  have h := toDouble_eval (118.408 : ℚ) 6 8332222260588839 (by norm_num) (by norm_num)
    (by norm_num [rndHalfEven])
  rw [h]
  norm_num

theorem toDouble_neg_118408 :
    toDouble (-118.408 : ℚ) = -(8332222260588839 / 70368744177664) := by
  rw [show (-118.408 : ℚ) = -(118.408 : ℚ) by norm_num, toDouble_neg_eq, toDouble_118408]

theorem toDouble_108 : toDouble (108 : ℚ) = 108 := by
  have h := toDouble_eval (108 : ℚ) 6 7599824371187712 (by norm_num) (by norm_num)
    (by norm_num [rndHalfEven])
  rw [h]
  norm_num

theorem toDouble_137 : toDouble (137 : ℚ) = 137 := by
  have h := toDouble_eval (137 : ℚ) 7 4820258976169984 (by norm_num) (by norm_num)
    (by norm_num [rndHalfEven])
  rw [h]
  norm_num

theorem validateFreq_1198double :
    validateFreq (8430175552484147 / 70368744177664 : ℚ) = some 119800 := by
  have hno : ¬ (500 : ℚ) < 8430175552484147 / 70368744177664 := by norm_num
  unfold validateFreq
  rw [if_neg hno, if_pos (by constructor <;> norm_num [VHF_MIN, VHF_MAX])]
  simp only [fmul]
  rw [rnd_toDouble_eq ((8430175552484147 / 70368744177664 : ℚ) * 1000) 119800 16
    (by norm_num) (by norm_num) (by norm_num) (by norm_num)]

/-! ### The validator round-trips on accepted values (claim C1 support) -/

theorem qexp_le_seven (q : ℚ) (hq : 0 < q) (hle : q ≤ 137) : qexp q ≤ 7 := by
  by_contra h
  have h8 : (8:ℤ) ≤ qexp q := by omega
  have hmono : (2:ℚ) ^ (8:ℤ) ≤ (2:ℚ) ^ qexp q := zpow_le_zpow_right₀ one_le_two h8
  have hle2 := (qexp_spec q hq).1
  have h256 : (256:ℚ) = (2:ℚ) ^ (8:ℤ) := by norm_num
  linarith

theorem toDouble_close (q : ℚ) (hq : 0 < q) (hle : q ≤ 137) :
    q - 2 ^ (-46:ℤ) ≤ toDouble q ∧ toDouble q ≤ q + 2 ^ (-46:ℤ) := by
  obtain ⟨l, u⟩ := toDouble_bounds q hq
  have he : qexp q - 53 ≤ -46 := by
    have := qexp_le_seven q hq hle
    omega
  have hmono : (2:ℚ) ^ (qexp q - 53) ≤ (2:ℚ) ^ (-46:ℤ) := zpow_le_zpow_right₀ one_le_two he
  constructor <;> linarith

theorem validateFreq_108 : validateFreq (108 : ℚ) = some 108000 := by
  unfold validateFreq
  rw [if_neg (by norm_num : ¬ (500:ℚ) < 108),
    if_pos (by constructor <;> norm_num [VHF_MIN, VHF_MAX])]
  simp only [fmul]
  rw [rnd_toDouble_eq ((108 : ℚ) * 1000) 108000 16
    (by norm_num) (by norm_num) (by norm_num) (by norm_num)]

theorem validateFreq_137 : validateFreq (137 : ℚ) = some 137000 := by
  unfold validateFreq
  rw [if_neg (by norm_num : ¬ (500:ℚ) < 137),
    if_pos (by constructor <;> norm_num [VHF_MIN, VHF_MAX])]
  simp only [fmul]
  rw [rnd_toDouble_eq ((137 : ℚ) * 1000) 137000 17
    (by norm_num) (by norm_num) (by norm_num) (by norm_num)]

/-- Feeding an accepted kHz value back to the validator as MHz (its parsed
binary64 value) returns the same kHz value. -/
theorem revalidateFreq (k : ℤ) (h1 : 108000 ≤ k) (h2 : k ≤ 137000) :
    validateFreq (toDouble ((k : ℚ) / 1000)) = some k := by
  rcases eq_or_lt_of_le h1 with he | h1'
  · rw [← he, show ((108000 : ℤ) : ℚ) / 1000 = 108 by norm_num, toDouble_108]
    exact validateFreq_108
  rcases eq_or_lt_of_le h2 with he2 | h2'
  · rw [he2, show ((137000 : ℤ) : ℚ) / 1000 = 137 by norm_num, toDouble_137]
    exact validateFreq_137
  have hk1 : ((108001 : ℤ) : ℚ) ≤ (k : ℚ) := by exact_mod_cast (by omega : (108001:ℤ) ≤ k)
  have hk2 : (k : ℚ) ≤ ((136999 : ℤ) : ℚ) := by exact_mod_cast (by omega : k ≤ (136999:ℤ))
  have hk1' : (108001 : ℚ) ≤ (k : ℚ) := by exact_mod_cast hk1
  have hk2' : (k : ℚ) ≤ (136999 : ℚ) := by exact_mod_cast hk2
  have hq1000 : ((k : ℚ) / 1000) * 1000 = (k : ℚ) := by field_simp
  have hq0 : 0 < (k : ℚ) / 1000 := by
    have : (0:ℚ) < (k : ℚ) := by linarith
    positivity
  have hq137 : (k : ℚ) / 1000 ≤ 137 := by linarith
  obtain ⟨cl, cu⟩ := toDouble_close ((k : ℚ) / 1000) hq0 hq137
  have hsmall : (1000 : ℚ) * 2 ^ (-46:ℤ) < 1/2 := by norm_num
  have hsmall2 : (2:ℚ) ^ (-46:ℤ) < 1/1000 := by norm_num
  have hb1 : (108 : ℚ) ≤ toDouble ((k : ℚ) / 1000) := by linarith
  have hb2 : toDouble ((k : ℚ) / 1000) ≤ 137 := by linarith
  have h500 : ¬ (500 : ℚ) < toDouble ((k : ℚ) / 1000) := by linarith
  unfold validateFreq
  rw [if_neg h500, if_pos (⟨hb1, hb2⟩ : VHF_MIN ≤ toDouble ((k : ℚ) / 1000) ∧
    toDouble ((k : ℚ) / 1000) ≤ VHF_MAX)]
  simp only [fmul]
  have h218 : (2:ℚ) ^ ((17:ℤ) + 1) = 262144 := by norm_num
  have h236 : (2:ℚ) ^ ((17:ℤ) - 53) = 1 / 68719476736 := by norm_num
  have hsm3 : (1000 : ℚ) * 2 ^ (-46:ℤ) + 1 / 68719476736 < 1/2 := by norm_num
  have hrnd : rndHalfEven (toDouble (toDouble ((k : ℚ) / 1000) * 1000)) = k := by
    apply rnd_toDouble_eq (toDouble ((k : ℚ) / 1000) * 1000) k 17
    · linarith
    · rw [h218]
      linarith
    · rw [h236]
      linarith [cl, hq1000, hsm3]
    · rw [h236]
      linarith [cu, hq1000, hsm3]
  rw [hrnd]

theorem validateFreq_1198 : validateFreq (119.8 : ℚ) = some 119800 := by
  unfold validateFreq
  rw [if_neg (by norm_num : ¬ (500:ℚ) < 119.8),
    if_pos (by constructor <;> norm_num [VHF_MIN, VHF_MAX])]
  simp only [fmul]
  rw [rnd_toDouble_eq ((119.8 : ℚ) * 1000) 119800 16
    (by norm_num) (by norm_num) (by norm_num) (by norm_num)]

/-- **C1 (corrected).** For every parsed float value `v`, the validator
rescales with the binary64 quotient (`m = v ⊘ 1000` if `v > 500`, else
`m = v`), accepts exactly when `108.0 ≤ m ≤ 137.0` (inclusive) and rejects
silently otherwise, and the emitted integer kHz value is the banker's
rounding of the *binary64 product* `m ⊗ 1000` — not of the exact product
`m · 1000`, from which it differs at half-kHz ties such as the parsed
float of "118.0005" (see the counterexample below); re-validating an
accepted kHz value re-expressed in MHz (`kHz/1000`, parsed back to a
float) returns the same kHz value. -/
theorem freq_validator_spec (v : ℚ) :
    (validateFreq v =
      if 108 ≤ (if 500 < v then fdiv v 1000 else v) ∧
          (if 500 < v then fdiv v 1000 else v) ≤ 137 then
        some (rndHalfEven (fmul (if 500 < v then fdiv v 1000 else v) 1000))
      else none)
    ∧ ∀ k : ℤ, validateFreq v = some k →
        validateFreq (toDouble ((k : ℚ) / 1000)) = some k := by
  constructor
  · rfl
  · intro k hk
    unfold validateFreq at hk
    by_cases hband : VHF_MIN ≤ (if 500 < v then fdiv v 1000 else v) ∧
        (if 500 < v then fdiv v 1000 else v) ≤ VHF_MAX
    · rw [if_pos hband] at hk
      have hkeq := Option.some.inj hk
      have hb1 : (108:ℚ) ≤ (if 500 < v then fdiv v 1000 else v) := hband.1
      have hb2 : (if 500 < v then fdiv v 1000 else v) ≤ (137:ℚ) := hband.2
      simp only [fmul] at hkeq
      have hx : 0 < (if 500 < v then fdiv v 1000 else v) * 1000 := by linarith
      have h218 : (2:ℚ) ^ ((17:ℤ) + 1) = 262144 := by norm_num
      have hB : (if 500 < v then fdiv v 1000 else v) * 1000 < (2:ℚ) ^ ((17:ℤ) + 1) := by
        rw [h218]
        linarith
      obtain ⟨wl, wu⟩ := toDouble_close_of ((if 500 < v then fdiv v 1000 else v) * 1000) hx 17 hB
      have h236 : (2:ℚ) ^ ((17:ℤ) - 53) = 1 / 68719476736 := by norm_num
      obtain ⟨rl, ru⟩ :=
        rndHalfEven_bounds (toDouble ((if 500 < v then fdiv v 1000 else v) * 1000))
      rw [hkeq] at rl ru
      have hkl : (107999:ℚ) < (k:ℚ) := by
        rw [h236] at wl
        linarith
      have hku : (k:ℚ) < (137001:ℚ) := by
        rw [h236] at wu
        linarith
      have hk1 : 108000 ≤ k := by
        have : (107999:ℤ) < k := by exact_mod_cast hkl
        omega
      have hk2 : k ≤ 137000 := by
        have : k < (137001:ℤ) := by exact_mod_cast hku
        omega
      exact revalidateFreq k hk1 hk2
    · rw [if_neg hband] at hk
      exact absurd hk (by simp)

/-- Witness for C1 at the concrete input 119.8 MHz. -/
theorem freq_validator_spec_witness :
    validateFreq (119.8 : ℚ) = some 119800 ∧
      validateFreq (toDouble (((119800 : ℤ) : ℚ) / 1000)) = some 119800 :=
  ⟨validateFreq_1198, (freq_validator_spec (119.8 : ℚ)).2 119800 validateFreq_1198⟩

/-- The exact-arithmetic reading of C1 ("the kHz value equals the rounding
of the exact product `m * 1000`") is false at the spec's own pinned
boundary value "118.0005": the parsed binary64 value of that string lies
just above the half-kHz tie, so rounding the exact product gives 118001,
but the program computes the binary64 product, which lands exactly on
118000.5, and banker's rounding emits 118000. -/
theorem freq_validator_exact_rounding_counterexample :
    toDouble (118.0005 : ℚ) = 8303546997336441 / 70368744177664
    ∧ validateFreq (8303546997336441 / 70368744177664 : ℚ) = some 118000
    ∧ rndHalfEven ((8303546997336441 / 70368744177664 : ℚ) * 1000) = 118001 := by
  refine ⟨?_, ?_, ?_⟩
  · have h := toDouble_eval (118.0005 : ℚ) 6 8303546997336441 (by norm_num) (by norm_num)
      (by norm_num [rndHalfEven])
    rw [h]
    norm_num
  · have hno : ¬ (500 : ℚ) < 8303546997336441 / 70368744177664 := by norm_num
    unfold validateFreq
    rw [if_neg hno, if_pos (by constructor <;> norm_num [VHF_MIN, VHF_MAX])]
    simp only [fmul]
    have hd : toDouble ((8303546997336441 / 70368744177664 : ℚ) * 1000) = 236001 / 2 := by
      have h := toDouble_eval ((8303546997336441 / 70368744177664 : ℚ) * 1000) 16
        8108932614586368 (by norm_num) (by norm_num) (by norm_num [rndHalfEven])
      rw [h]
      norm_num
    rw [hd]
    norm_num [rndHalfEven]
  · norm_num [rndHalfEven]

/-! ### Dictionary lemmas for the dedup loop -/

/-- Invariant of `freq_dict`: pairwise-distinct keys, and each value is
stored under its own kHz value. -/
def goodDict (d : List (ℤ × FreqEntry)) : Prop :=
  (d.map Prod.fst).Nodup ∧ ∀ p ∈ d, (Prod.snd p).khz = Prod.fst p

theorem goodDict_nil : goodDict [] := by
  constructor
  · exact List.nodup_nil
  · intro p hp
    exact absurd hp (List.not_mem_nil p)

theorem findVal_eq_none_iff (d : List (ℤ × FreqEntry)) (k : ℤ) :
    findVal d k = none ↔ k ∉ d.map Prod.fst := by
  induction d with
  | nil => simp [findVal]
  | cons p d ih =>
    obtain ⟨k', v⟩ := p
    by_cases h : k' = k
    · subst h
      simp [findVal]
    · simp [findVal, h, ih, Ne.symm h]

theorem findVal_setKey_self (d : List (ℤ × FreqEntry)) (k : ℤ) (e : FreqEntry) :
    findVal (setKey d k e) k = some e := by
  induction d with
  | nil => simp [setKey, findVal]
  | cons p d ih =>
    obtain ⟨k', v⟩ := p
    by_cases h : k' = k
    · simp [setKey, h, findVal]
    · simp [setKey, h, findVal, ih]

theorem findVal_setKey_ne (d : List (ℤ × FreqEntry)) (k j : ℤ) (e : FreqEntry)
    (h : j ≠ k) : findVal (setKey d k e) j = findVal d j := by
  induction d with
  | nil => simp [setKey, findVal, Ne.symm h]
  | cons p d ih =>
    obtain ⟨k', v⟩ := p
    by_cases hk : k' = k
    · subst hk
      have hkj : ¬ k' = j := fun hc => h (hc ▸ rfl)
      simp [setKey, findVal, hkj]
    · by_cases hj : k' = j
      · simp [setKey, hk, findVal, hj, h]
      · simp [setKey, hk, findVal, hj, ih]

theorem setKey_of_none (d : List (ℤ × FreqEntry)) (k : ℤ) (e : FreqEntry)
    (h : findVal d k = none) : setKey d k e = d ++ [(k, e)] := by
  induction d with
  | nil => simp [setKey]
  | cons p d ih =>
    obtain ⟨k', v⟩ := p
    by_cases hk : k' = k
    · rw [findVal, if_pos hk] at h
      exact absurd h (by simp)
    · rw [findVal, if_neg hk] at h
      simp [setKey, hk, ih h]

theorem mem_setKey (d : List (ℤ × FreqEntry)) (k : ℤ) (e : FreqEntry)
    (p : ℤ × FreqEntry) (hp : p ∈ setKey d k e) : p ∈ d ∨ p = (k, e) := by
  induction d with
  | nil =>
    rw [setKey] at hp
    right
    simpa using hp
  | cons q d ih =>
    obtain ⟨k', v⟩ := q
    by_cases hk : k' = k
    · rw [setKey, if_pos hk] at hp
      rcases List.mem_cons.mp hp with h | h
      · right; exact h
      · left; exact List.mem_cons_of_mem _ h
    · rw [setKey, if_neg hk] at hp
      rcases List.mem_cons.mp hp with h | h
      · left; exact h ▸ List.mem_cons_self _ _
      · rcases ih h with h' | h'
        · left; exact List.mem_cons_of_mem _ h'
        · right; exact h'

theorem keys_setKey_of_some (d : List (ℤ × FreqEntry)) (k : ℤ) (e : FreqEntry)
    (w : FreqEntry) (h : findVal d k = some w) :
    (setKey d k e).map Prod.fst = d.map Prod.fst := by
  induction d with
  | nil => rw [findVal] at h; exact absurd h (by simp)
  | cons p d ih =>
    obtain ⟨k', v⟩ := p
    by_cases hk : k' = k
    · subst hk
      simp [setKey]
    · rw [findVal, if_neg hk] at h
      simp [setKey, hk, ih h]

theorem goodDict_setKey (d : List (ℤ × FreqEntry)) (k : ℤ) (e : FreqEntry)
    (hg : goodDict d) (he : e.khz = k) : goodDict (setKey d k e) := by
  cases h : findVal d k with
  | none =>
    rw [setKey_of_none d k e h]
    constructor
    · rw [List.map_append, List.nodup_append]
      refine ⟨hg.1, List.nodup_singleton _, ?_⟩
      intro x hx hx'
      simp at hx'
      rw [hx'] at hx
      exact (findVal_eq_none_iff d k).mp h hx
    · intro p hp
      rcases List.mem_append.mp hp with h' | h'
      · exact hg.2 p h'
      · simp at h'
        subst h'
        exact he
  | some w =>
    constructor
    · rw [keys_setKey_of_some d k e w h]
      exact hg.1
    · intro p hp
      rcases mem_setKey d k e p hp with h' | h'
      · exact hg.2 p h'
      · subst h'
        exact he

/-! Branch equations for `stepDedup` (lines 72–81 case by case). -/

theorem stepDedup_typed_none (d : List (ℤ × FreqEntry)) (k : ℤ) (t : String)
    (h : findVal d k = none) :
    stepDedup d (.typed k t) = setKey d k (.typed k t) := by
  simp only [stepDedup, h]

theorem stepDedup_typed_some_typed (d : List (ℤ × FreqEntry)) (k : ℤ) (t : String)
    (old : FreqEntry) (h : findVal d k = some old) (ht : old.isTyped = true) :
    stepDedup d (.typed k t) = d := by
  simp only [stepDedup, h, ht, if_true]

theorem stepDedup_typed_some_plain (d : List (ℤ × FreqEntry)) (k : ℤ) (t : String)
    (old : FreqEntry) (h : findVal d k = some old) (ht : old.isTyped = false) :
    stepDedup d (.typed k t) = setKey d k (.typed k t) := by
  simp only [stepDedup, h, ht, Bool.false_eq_true, if_false]

theorem stepDedup_plain_none (d : List (ℤ × FreqEntry)) (k : ℤ)
    (h : findVal d k = none) :
    stepDedup d (.plain k) = setKey d k (.plain k) := by
  simp only [stepDedup, h]

theorem stepDedup_plain_some (d : List (ℤ × FreqEntry)) (k : ℤ)
    (old : FreqEntry) (h : findVal d k = some old) :
    stepDedup d (.plain k) = d := by
  simp only [stepDedup, h]

theorem goodDict_stepDedup (d : List (ℤ × FreqEntry)) (e : FreqEntry)
    (hg : goodDict d) : goodDict (stepDedup d e) := by
  cases e with
  | typed k t =>
    cases h : findVal d k with
    | none =>
      rw [stepDedup_typed_none d k t h]
      exact goodDict_setKey d k (FreqEntry.typed k t) hg rfl
    | some old =>
      cases ht : old.isTyped with
      | true =>
        rw [stepDedup_typed_some_typed d k t old h ht]
        exact hg
      | false =>
        rw [stepDedup_typed_some_plain d k t old h ht]
        exact goodDict_setKey d k (FreqEntry.typed k t) hg rfl
  | plain k =>
    cases h : findVal d k with
    | none =>
      rw [stepDedup_plain_none d k h]
      exact goodDict_setKey d k (FreqEntry.plain k) hg rfl
    | some old =>
      rw [stepDedup_plain_some d k old h]
      exact hg

theorem goodDict_foldl (l : List FreqEntry) :
    ∀ d, goodDict d → goodDict (l.foldl stepDedup d) := by
  induction l with
  | nil => intro d hg; exact hg
  | cons e l ih =>
    intro d hg
    rw [List.foldl_cons]
    exact ih _ (goodDict_stepDedup d e hg)

theorem goodDict_buildDict (l : List FreqEntry) : goodDict (buildDict l) :=
  goodDict_foldl l [] goodDict_nil

/-- The content of the dict after folding `l`, as a function of the entry
previously stored at key `k`. -/
def dictAfter (old : Option FreqEntry) (l : List FreqEntry) (k : ℤ) : Option FreqEntry :=
  match old with
  | some w => if w.isTyped then some w else some ((firstTypedAt l k).getD w)
  | none => codeSurv l k

theorem dictAfter_some_typed (w : FreqEntry) (l : List FreqEntry) (k : ℤ)
    (ht : w.isTyped = true) : dictAfter (some w) l k = some w := by
  simp [dictAfter, ht]

theorem dictAfter_some_plain (w : FreqEntry) (l : List FreqEntry) (k : ℤ)
    (ht : w.isTyped = false) :
    dictAfter (some w) l k = some ((firstTypedAt l k).getD w) := by
  simp [dictAfter, ht]

theorem dictAfter_none (l : List FreqEntry) (k : ℤ) :
    dictAfter none l k = codeSurv l k := rfl

theorem codeSurv_of_found (l : List FreqEntry) (k : ℤ) (e : FreqEntry)
    (h : firstTypedAt l k = some e) : codeSurv l k = some e := by
  simp [codeSurv, h]

theorem codeSurv_of_none (l : List FreqEntry) (k : ℤ)
    (h : firstTypedAt l k = none) :
    codeSurv l k = if anyAt l k then some (.plain k) else none := by
  simp [codeSurv, h]

theorem firstTypedAt_cons (e : FreqEntry) (l : List FreqEntry) (k : ℤ) :
    firstTypedAt (e :: l) k =
      if e.isTyped ∧ e.khz = k then some e else firstTypedAt l k := by
  by_cases h : e.isTyped ∧ e.khz = k
  · rw [if_pos h]
    unfold firstTypedAt
    rw [List.find?_cons_of_pos]
    simp [h.1, h.2]
  · rw [if_neg h]
    unfold firstTypedAt
    rw [List.find?_cons_of_neg]
    simp only [Bool.and_eq_true, decide_eq_true_eq]
    intro hcon
    exact h ⟨hcon.1, hcon.2⟩

theorem anyAt_cons (e : FreqEntry) (l : List FreqEntry) (k : ℤ) :
    anyAt (e :: l) k = (decide (e.khz = k) || anyAt l k) := by
  simp [anyAt]

theorem dictAfter_cons_other (old : Option FreqEntry) (e : FreqEntry)
    (l : List FreqEntry) (k : ℤ) (hne : e.khz ≠ k) :
    dictAfter old (e :: l) k = dictAfter old l k := by
  have hft : firstTypedAt (e :: l) k = firstTypedAt l k := by
    rw [firstTypedAt_cons, if_neg]
    intro hcon
    exact hne hcon.2
  have hany : anyAt (e :: l) k = anyAt l k := by
    rw [anyAt_cons]
    simp [hne]
  cases old with
  | none =>
    rw [dictAfter_none, dictAfter_none]
    unfold codeSurv
    rw [hft, hany]
  | some w =>
    cases ht : w.isTyped with
    | true => rw [dictAfter_some_typed _ _ _ ht, dictAfter_some_typed _ _ _ ht]
    | false =>
      rw [dictAfter_some_plain _ _ _ ht, dictAfter_some_plain _ _ _ ht, hft]

theorem findVal_foldl_stepDedup (l : List FreqEntry) :
    ∀ d k, goodDict d →
      findVal (l.foldl stepDedup d) k = dictAfter (findVal d k) l k := by
  induction l with
  | nil =>
    intro d k _
    rw [List.foldl_nil]
    cases h : findVal d k with
    | none =>
      rw [dictAfter_none]
      rw [codeSurv_of_none _ _ (by rw [firstTypedAt]; rfl)]
      simp [anyAt]
    | some w =>
      cases ht : w.isTyped with
      | true => rw [dictAfter_some_typed _ _ _ ht]
      | false =>
        rw [dictAfter_some_plain _ _ _ ht]
        rw [show firstTypedAt [] k = none from rfl]
        rfl
  | cons e l ih =>
    intro d k hg
    rw [List.foldl_cons, ih (stepDedup d e) k (goodDict_stepDedup d e hg)]
    cases e with
    | typed k0 t =>
      by_cases hkk : k0 = k
      · subst hkk
        have hft : firstTypedAt (FreqEntry.typed k0 t :: l) k0 = some (.typed k0 t) := by
          rw [firstTypedAt_cons, if_pos ⟨rfl, rfl⟩]
        cases h : findVal d k0 with
        | none =>
          rw [stepDedup_typed_none d k0 t h, findVal_setKey_self]
          rw [dictAfter_some_typed (FreqEntry.typed k0 t) l k0 rfl, dictAfter_none,
            codeSurv_of_found _ _ _ hft]
        | some old =>
          cases ht : old.isTyped with
          | true =>
            rw [stepDedup_typed_some_typed d k0 t old h ht, h]
            rw [dictAfter_some_typed _ _ _ ht, dictAfter_some_typed _ _ _ ht]
          | false =>
            rw [stepDedup_typed_some_plain d k0 t old h ht, findVal_setKey_self]
            rw [dictAfter_some_typed (FreqEntry.typed k0 t) l k0 rfl,
              dictAfter_some_plain _ _ _ ht, hft]
            rfl
      · have hstep : findVal (stepDedup d (.typed k0 t)) k = findVal d k := by
          cases h : findVal d k0 with
          | none =>
            rw [stepDedup_typed_none d k0 t h]
            exact findVal_setKey_ne d k0 k _ (Ne.symm hkk)
          | some old =>
            cases ht : old.isTyped with
            | true => rw [stepDedup_typed_some_typed d k0 t old h ht]
            | false =>
              rw [stepDedup_typed_some_plain d k0 t old h ht]
              exact findVal_setKey_ne d k0 k _ (Ne.symm hkk)
        rw [hstep, dictAfter_cons_other (findVal d k) (FreqEntry.typed k0 t) l k hkk]
    | plain k0 =>
      by_cases hkk : k0 = k
      · subst hkk
        have hft : firstTypedAt (FreqEntry.plain k0 :: l) k0 = firstTypedAt l k0 := by
          rw [firstTypedAt_cons, if_neg]
          intro hcon
          exact absurd hcon.1 (by simp [FreqEntry.isTyped])
        have hany : anyAt (FreqEntry.plain k0 :: l) k0 = true := by
          rw [anyAt_cons]
          simp [FreqEntry.khz]
        cases h : findVal d k0 with
        | none =>
          rw [stepDedup_plain_none d k0 h, findVal_setKey_self]
          rw [dictAfter_some_plain (FreqEntry.plain k0) l k0 rfl, dictAfter_none]
          cases hf : firstTypedAt l k0 with
          | some f =>
            rw [codeSurv_of_found _ _ _ (hft.trans hf)]
            rfl
          | none =>
            rw [codeSurv_of_none _ _ (hft.trans hf), hany, if_pos rfl]
            rfl
        | some old =>
          rw [stepDedup_plain_some d k0 old h, h]
          cases ht : old.isTyped with
          | true => rw [dictAfter_some_typed _ _ _ ht, dictAfter_some_typed _ _ _ ht]
          | false =>
            rw [dictAfter_some_plain _ _ _ ht, dictAfter_some_plain _ _ _ ht, hft]
      · have hstep : findVal (stepDedup d (.plain k0)) k = findVal d k := by
          cases h : findVal d k0 with
          | none =>
            rw [stepDedup_plain_none d k0 h]
            exact findVal_setKey_ne d k0 k _ (Ne.symm hkk)
          | some old => rw [stepDedup_plain_some d k0 old h]
        rw [hstep, dictAfter_cons_other (findVal d k) (FreqEntry.plain k0) l k hkk]

theorem findVal_buildDict (l : List FreqEntry) (k : ℤ) :
    findVal (buildDict l) k = codeSurv l k := by
  have h := findVal_foldl_stepDedup l [] k goodDict_nil
  rw [buildDict, h]
  rfl

/-! ### Membership and order of the dedup output -/

theorem mem_values_iff (d : List (ℤ × FreqEntry)) (hg : goodDict d) (e : FreqEntry) :
    e ∈ d.map Prod.snd ↔ findVal d e.khz = some e := by
  induction d with
  | nil => simp [findVal]
  | cons p d ih =>
    obtain ⟨k', v⟩ := p
    have hg' : goodDict d :=
      ⟨(List.nodup_cons.mp hg.1).2, fun q hq => hg.2 q (List.mem_cons_of_mem _ hq)⟩
    have hv : v.khz = k' := hg.2 (k', v) (List.mem_cons_self _ _)
    constructor
    · intro hmem
      rw [List.map_cons] at hmem
      rcases List.mem_cons.mp hmem with he | he
      · subst he
        rw [findVal, if_pos hv.symm]
      · have hkey : e.khz ∈ d.map Prod.fst := by
          rcases List.mem_map.mp he with ⟨q, hq, hqe⟩
          have hq1 := hg'.2 q hq
          rw [hqe] at hq1
          rw [hq1]
          exact List.mem_map_of_mem _ hq
        have hne : ¬ k' = e.khz := by
          intro hc
          exact (List.nodup_cons.mp hg.1).1 (hc ▸ hkey)
        rw [findVal, if_neg hne]
        exact (ih hg').mp he
    · intro hfv
      rw [findVal] at hfv
      by_cases hke : k' = e.khz
      · rw [if_pos hke] at hfv
        have : v = e := Option.some.inj hfv
        subst this
        exact List.mem_cons_self _ _
      · rw [if_neg hke] at hfv
        exact List.mem_cons_of_mem _ ((ih hg').mpr hfv)

theorem mem_dedupStep_iff (l : List FreqEntry) (e : FreqEntry) :
    e ∈ dedupStep l ↔ codeSurv l e.khz = some e := by
  unfold dedupStep
  rw [List.mem_mergeSort, mem_values_iff (buildDict l) (goodDict_buildDict l) e,
    findVal_buildDict]

theorem keys_eq_khz_values (d : List (ℤ × FreqEntry)) (hg : goodDict d) :
    (d.map Prod.snd).map FreqEntry.khz = d.map Prod.fst := by
  rw [List.map_map]
  apply List.map_congr_left
  intro p hp
  exact hg.2 p hp

theorem dedupStep_khz_nodup (l : List FreqEntry) :
    ((dedupStep l).map FreqEntry.khz).Nodup := by
  have hg := goodDict_buildDict l
  have hperm : List.Perm (dedupStep l) ((buildDict l).map Prod.snd) :=
    List.mergeSort_perm _ _
  have hmap := hperm.map FreqEntry.khz
  rw [keys_eq_khz_values _ hg] at hmap
  exact hmap.nodup_iff.mpr hg.1

theorem freqLE_trans (a b c : FreqEntry)
    (h1 : freqLE a b = true) (h2 : freqLE b c = true) : freqLE a c = true := by
  simp only [freqLE, decide_eq_true_eq] at *
  omega

theorem freqLE_total (a b : FreqEntry) : (freqLE a b || freqLE b a) = true := by
  simp only [freqLE, Bool.or_eq_true, decide_eq_true_eq]
  omega

theorem dedupStep_sorted_le (l : List FreqEntry) :
    (dedupStep l).Pairwise fun a b => freqLE a b = true := by
  unfold dedupStep
  exact List.sorted_mergeSort freqLE_trans freqLE_total _

theorem pairwise_lt_of_le_nodup (l : List FreqEntry)
    (hle : l.Pairwise fun a b => freqLE a b = true)
    (hnd : (l.map FreqEntry.khz).Nodup) :
    l.Pairwise fun a b => a.khz < b.khz := by
  induction l with
  | nil => exact List.Pairwise.nil
  | cons a l ih =>
    rw [List.pairwise_cons] at hle ⊢
    rw [List.map_cons, List.nodup_cons] at hnd
    refine ⟨?_, ih hle.2 hnd.2⟩
    intro b hb
    have h1 : a.khz ≤ b.khz := by
      have := hle.1 b hb
      simpa [freqLE] using this
    have h2 : a.khz ≠ b.khz := fun hcon => hnd.1 (hcon ▸ List.mem_map_of_mem _ hb)
    omega

theorem dedupStep_pairwise_lt (l : List FreqEntry) :
    (dedupStep l).Pairwise fun a b => a.khz < b.khz :=
  pairwise_lt_of_le_nodup _ (dedupStep_sorted_le l) (dedupStep_khz_nodup l)

/-! ### From the code's survivor to the spec's survivor -/

theorem find?_congr_mem {α : Type} {p q : α → Bool} (l : List α)
    (h : ∀ e ∈ l, p e = q e) : l.find? p = l.find? q := by
  induction l with
  | nil => rfl
  | cons a l ih =>
    cases hpa : p a with
    | true =>
      rw [List.find?_cons_of_pos _ hpa,
        List.find?_cons_of_pos _ ((h a (List.mem_cons_self _ _)) ▸ hpa)]
    | false =>
      rw [List.find?_cons_of_neg _ (by simp [hpa]),
        List.find?_cons_of_neg _ (by simp [← h a (List.mem_cons_self _ _), hpa])]
      exact ih fun e he => h e (List.mem_cons_of_mem _ he)

theorem codeSurv_claim (l : List FreqEntry) (k : ℤ)
    (hl : ∀ k0 t, FreqEntry.typed k0 t ∈ l → t ≠ "") (e : FreqEntry) :
    codeSurv l k = some e ↔ (anyAt l k = true ∧ e = claimSurvivor l k) := by
  have hfind : (l.find? fun x => x.isTyped && x.khz = k) =
      (l.find? fun x => x.hasTypeCode && x.khz = k) := by
    apply find?_congr_mem
    intro x hx
    cases x with
    | plain k0 => simp [FreqEntry.isTyped, FreqEntry.hasTypeCode]
    | typed k0 t =>
      simp [FreqEntry.isTyped, FreqEntry.hasTypeCode, hl k0 t hx]
  unfold codeSurv claimSurvivor firstTypedAt
  rw [hfind]
  cases hft : l.find? fun x => x.hasTypeCode && x.khz = k with
  | some f =>
    have hf_mem : f ∈ l := List.mem_of_find?_eq_some hft
    have hf_pred := List.find?_some hft
    have hf_khz : f.khz = k := by
      simp only [Bool.and_eq_true, decide_eq_true_eq] at hf_pred
      exact hf_pred.2
    have hany : anyAt l k = true := by
      apply List.any_eq_true.mpr
      exact ⟨f, hf_mem, by simp [hf_khz]⟩
    constructor
    · intro hsome
      exact ⟨hany, (Option.some.inj hsome).symm⟩
    · intro ⟨_, he⟩
      rw [he]
      rfl
  | none =>
    constructor
    · intro hsome
      cases hany : anyAt l k with
      | true =>
        rw [hany, if_pos rfl] at hsome
        exact ⟨rfl, (Option.some.inj hsome).symm⟩
      | false =>
        rw [hany] at hsome
        simp at hsome
    · intro ⟨hany, he⟩
      rw [hany, if_pos rfl, he]
      rfl

/-- **C2.** For every per-airport entry sequence (all of whose typed
entries carry a non-empty type string, as the pipeline guarantees), the
deduplicated sequence is strictly ascending in kHz (hence each kHz value
appears at most once), and an entry survives exactly when it is, for its
kHz value, the first input entry carrying a non-empty type code — or, if
no entry of that value is typed, the bare (untyped) entry. -/
theorem dedup_spec (l : List FreqEntry)
    (hl : ∀ k t, FreqEntry.typed k t ∈ l → t ≠ "") :
    ((dedupStep l).Pairwise fun a b => a.khz < b.khz)
    ∧ ∀ e, e ∈ dedupStep l ↔ (anyAt l e.khz = true ∧ e = claimSurvivor l e.khz) := by
  refine ⟨dedupStep_pairwise_lt l, fun e => ?_⟩
  rw [mem_dedupStep_iff]
  exact codeSurv_claim l e.khz hl e

/-- Witness for C2: a typed and an untyped observation of the same kHz
value; the typed one survives. -/
theorem dedup_spec_witness :
    FreqEntry.typed 119800 "TOWER" ∈
      dedupStep [FreqEntry.typed 119800 "TOWER", FreqEntry.plain 119800]
    ∧ ((dedupStep [FreqEntry.typed 119800 "TOWER", FreqEntry.plain 119800]).Pairwise
        fun a b => a.khz < b.khz) := by
  have hl : ∀ k t, FreqEntry.typed k t ∈
      [FreqEntry.typed 119800 "TOWER", FreqEntry.plain 119800] → t ≠ "" := by
    intro k t ht
    rcases List.mem_cons.mp ht with h | h
    · cases h
      decide
    · rcases List.mem_cons.mp h with h' | h'
      · exact absurd h' (by simp)
      · exact absurd h' (List.not_mem_nil _)
  have h := dedup_spec [FreqEntry.typed 119800 "TOWER", FreqEntry.plain 119800] hl
  refine ⟨(h.2 (FreqEntry.typed 119800 "TOWER")).mpr ⟨?_, ?_⟩, h.1⟩
  · decide
  · decide

/-! ### Idempotence of the dedup step (claim C7 support) -/

theorem findVal_append (d₁ d₂ : List (ℤ × FreqEntry)) (k : ℤ) :
    findVal (d₁ ++ d₂) k =
      match findVal d₁ k with
      | some v => some v
      | none => findVal d₂ k := by
  induction d₁ with
  | nil => rfl
  | cons p d ih =>
    obtain ⟨k', v⟩ := p
    by_cases h : k' = k
    · simp [findVal, h]
    · simp [findVal, h, ih]

theorem foldl_stepDedup_fresh (l : List FreqEntry) :
    ∀ d, goodDict d → (∀ e ∈ l, findVal d e.khz = none) →
      (l.Pairwise fun a b => a.khz ≠ b.khz) →
      l.foldl stepDedup d = d ++ l.map fun e => (e.khz, e) := by
  induction l with
  | nil => intro d _ _ _; simp
  | cons e l ih =>
    intro d hg hdisj hpw
    rw [List.foldl_cons]
    have hnone : findVal d e.khz = none := hdisj e (List.mem_cons_self _ _)
    have hstep : stepDedup d e = d ++ [(e.khz, e)] := by
      cases e with
      | typed k t =>
        rw [stepDedup_typed_none d k t hnone]
        exact setKey_of_none d k _ hnone
      | plain k =>
        rw [stepDedup_plain_none d k hnone]
        exact setKey_of_none d k _ hnone
    rw [hstep]
    have hg' : goodDict (d ++ [(e.khz, e)]) := by
      have := goodDict_setKey d e.khz e hg rfl
      rwa [setKey_of_none d e.khz e hnone] at this
    have hdisj' : ∀ x ∈ l, findVal (d ++ [(e.khz, e)]) x.khz = none := by
      intro x hx
      rw [findVal_append, hdisj x (List.mem_cons_of_mem _ hx)]
      have hne : ¬ e.khz = x.khz := (List.pairwise_cons.mp hpw).1 x hx
      simp [findVal, hne]
    rw [ih (d ++ [(e.khz, e)]) hg' hdisj' (List.pairwise_cons.mp hpw).2]
    simp

theorem buildDict_of_pairwise_ne (l : List FreqEntry)
    (hpw : l.Pairwise fun a b => a.khz ≠ b.khz) :
    buildDict l = l.map fun e => (e.khz, e) := by
  have h := foldl_stepDedup_fresh l [] goodDict_nil (fun e _ => rfl) hpw
  rw [buildDict, h]
  simp

theorem dedupStep_of_sorted (l : List FreqEntry)
    (hpw : l.Pairwise fun a b => a.khz < b.khz) :
    dedupStep l = l := by
  unfold dedupStep
  rw [buildDict_of_pairwise_ne l (hpw.imp fun h => ne_of_lt h)]
  have hvals : ∀ m : List FreqEntry, ((m.map fun e => (e.khz, e)).map Prod.snd) = m := by
    intro m
    induction m with
    | nil => rfl
    | cons e m ih => simp only [List.map_cons]; rw [ih]
  rw [hvals l]
  exact List.mergeSort_of_sorted
    (hpw.imp fun h => by simp only [freqLE, decide_eq_true_eq]; omega)

/-- **C7.** The deduplication step is idempotent: applied to its own
output it returns that output unchanged. -/
theorem dedup_idempotent (l : List FreqEntry) :
    dedupStep (dedupStep l) = dedupStep l :=
  dedupStep_of_sorted _ (dedupStep_pairwise_lt l)

/-! ### Mapping type codes before or after deduplication (claim C6 support) -/

theorem entryMap_khz (e : FreqEntry) : (entryMap e).khz = e.khz := by
  cases e <;> rfl

theorem entryMap_isTyped (e : FreqEntry) : (entryMap e).isTyped = e.isTyped := by
  cases e <;> rfl

def mapVals (d : List (ℤ × FreqEntry)) : List (ℤ × FreqEntry) :=
  d.map fun p => (p.1, entryMap p.2)

theorem findVal_mapVals (d : List (ℤ × FreqEntry)) (k : ℤ) :
    findVal (mapVals d) k = (findVal d k).map entryMap := by
  induction d with
  | nil => rfl
  | cons p d ih =>
    obtain ⟨k', v⟩ := p
    by_cases h : k' = k
    · simp [mapVals, findVal, h]
    · simp only [mapVals, List.map_cons, findVal, if_neg h]
      exact ih

theorem setKey_mapVals (d : List (ℤ × FreqEntry)) (k : ℤ) (e : FreqEntry) :
    setKey (mapVals d) k (entryMap e) = mapVals (setKey d k e) := by
  induction d with
  | nil => rfl
  | cons p d ih =>
    obtain ⟨k', v⟩ := p
    by_cases h : k' = k
    · simp [mapVals, setKey, h]
    · simp only [mapVals, List.map_cons, setKey, if_neg h]
      rw [show (setKey (List.map (fun p => (p.1, entryMap p.2)) d) k (entryMap e)) =
        setKey (mapVals d) k (entryMap e) from rfl, ih]
      rfl

theorem stepDedup_mapVals (d : List (ℤ × FreqEntry)) (e : FreqEntry) :
    stepDedup (mapVals d) (entryMap e) = mapVals (stepDedup d e) := by
  cases e with
  | typed k t =>
    show stepDedup (mapVals d) (.typed k (mapTypeCode t)) = _
    cases h : findVal d k with
    | none =>
      have hm : findVal (mapVals d) k = none := by
        rw [findVal_mapVals, h]
        rfl
      rw [stepDedup_typed_none _ k _ hm, stepDedup_typed_none d k t h]
      exact setKey_mapVals d k (FreqEntry.typed k t)
    | some old =>
      have hm : findVal (mapVals d) k = some (entryMap old) := by
        rw [findVal_mapVals, h]
        rfl
      cases ht : old.isTyped with
      | true =>
        rw [stepDedup_typed_some_typed _ k _ (entryMap old) hm
            ((entryMap_isTyped old).trans ht),
          stepDedup_typed_some_typed d k t old h ht]
      | false =>
        rw [stepDedup_typed_some_plain _ k _ (entryMap old) hm
            ((entryMap_isTyped old).trans ht),
          stepDedup_typed_some_plain d k t old h ht]
        exact setKey_mapVals d k (FreqEntry.typed k t)
  | plain k =>
    show stepDedup (mapVals d) (.plain k) = _
    cases h : findVal d k with
    | none =>
      have hm : findVal (mapVals d) k = none := by
        rw [findVal_mapVals, h]
        rfl
      rw [stepDedup_plain_none _ k hm, stepDedup_plain_none d k h]
      exact setKey_mapVals d k (FreqEntry.plain k)
    | some old =>
      have hm : findVal (mapVals d) k = some (entryMap old) := by
        rw [findVal_mapVals, h]
        rfl
      rw [stepDedup_plain_some _ k (entryMap old) hm, stepDedup_plain_some d k old h]

theorem foldl_stepDedup_mapVals (l : List FreqEntry) :
    ∀ d, (l.map entryMap).foldl stepDedup (mapVals d) = mapVals (l.foldl stepDedup d) := by
  induction l with
  | nil => intro d; rfl
  | cons e l ih =>
    intro d
    rw [List.map_cons, List.foldl_cons, List.foldl_cons, stepDedup_mapVals]
    exact ih (stepDedup d e)

theorem buildDict_map_entryMap (l : List FreqEntry) :
    buildDict (l.map entryMap) = mapVals (buildDict l) := by
  have h := foldl_stepDedup_mapVals l []
  rw [buildDict, buildDict]
  exact h

theorem mergeSort_map_entryMap (X : List FreqEntry)
    (hnd : (X.map FreqEntry.khz).Nodup) :
    (X.map entryMap).mergeSort freqLE = (X.mergeSort freqLE).map entryMap := by
  have hkhz_map : (X.map entryMap).map FreqEntry.khz = X.map FreqEntry.khz := by
    rw [List.map_map]
    apply List.map_congr_left
    intro e _
    exact entryMap_khz e
  have hperm1 : List.Perm ((X.map entryMap).mergeSort freqLE) (X.map entryMap) :=
    List.mergeSort_perm _ _
  have hperm2 : List.Perm ((X.mergeSort freqLE).map entryMap) (X.map entryMap) :=
    (List.mergeSort_perm X freqLE).map entryMap
  have hnd1 : (((X.map entryMap).mergeSort freqLE).map FreqEntry.khz).Nodup := by
    have := hperm1.map FreqEntry.khz
    rw [hkhz_map] at this
    exact this.nodup_iff.mpr hnd
  have hnd2 : (((X.mergeSort freqLE).map entryMap).map FreqEntry.khz).Nodup := by
    have := hperm2.map FreqEntry.khz
    rw [hkhz_map] at this
    exact this.nodup_iff.mpr hnd
  have hs1 : ((X.map entryMap).mergeSort freqLE).Pairwise fun a b => a.khz < b.khz :=
    pairwise_lt_of_le_nodup _ (List.sorted_mergeSort freqLE_trans freqLE_total _) hnd1
  have hs2 : ((X.mergeSort freqLE).map entryMap).Pairwise fun a b => a.khz < b.khz := by
    apply pairwise_lt_of_le_nodup _ _ hnd2
    rw [List.pairwise_map]
    apply (List.sorted_mergeSort freqLE_trans freqLE_total X).imp
    intro a b hab
    simpa only [freqLE, entryMap_khz] using hab
  haveI : IsAntisymm FreqEntry fun a b => a.khz < b.khz :=
    ⟨fun a b h1 h2 => absurd (lt_trans h1 h2) (lt_irrefl _)⟩
  exact List.eq_of_perm_of_sorted (hperm1.trans hperm2.symm) hs1 hs2

theorem dedupStep_map_entryMap (l : List FreqEntry) :
    dedupStep (l.map entryMap) = (dedupStep l).map entryMap := by
  unfold dedupStep
  rw [buildDict_map_entryMap]
  have hvals : (mapVals (buildDict l)).map Prod.snd =
      ((buildDict l).map Prod.snd).map entryMap := by
    rw [mapVals, List.map_map, List.map_map]
    rfl
  rw [hvals]
  apply mergeSort_map_entryMap
  rw [keys_eq_khz_values _ (goodDict_buildDict l)]
  exact (goodDict_buildDict l).1

/-- **C6.** Applying the Type Code Mapper to every observation before
deduplication and compacting without further mapping yields exactly the
implementation's result, which deduplicates first and maps types only
during compaction. -/
theorem map_before_dedup_equiv (l : List FreqEntry) :
    specOrderFreqs l = compactFreqs l := by
  unfold specOrderFreqs compactFreqs
  rw [dedupStep_map_entryMap, List.map_map]
  apply List.map_congr_left
  intro e _
  cases e <;> rfl

/-! ### The Type Code Mapper (claim C4) -/

/-- **C4.** The Type Code Mapper is a total deterministic function on
strings: on a trimmed label that is a key of the static table it returns
the mapped code, on a non-empty trimmed label absent from the table it
returns that label unchanged, and on an empty (trimmed) label it returns
the empty string; lookup is case-sensitive (no case folding), e.g.
`"TOWER" ↦ "T"`, `"XYZ" ↦ "XYZ"`, `"" ↦ ""`, `"tower" ↦ "tower"`. -/
theorem type_code_mapper_spec :
    (∀ s : String,
      (pyStrip s = "" → typeCodeMapper s = "")
      ∧ (∀ c, lookupTM TYPE_MAP (pyStrip s) = some c → typeCodeMapper s = c)
      ∧ (lookupTM TYPE_MAP (pyStrip s) = none → typeCodeMapper s = pyStrip s))
    ∧ typeCodeMapper "TOWER" = "T" ∧ typeCodeMapper "XYZ" = "XYZ"
    ∧ typeCodeMapper "" = "" ∧ typeCodeMapper "tower" = "tower" := by
  refine ⟨fun s => ⟨?_, ?_, ?_⟩, by decide, by decide, by decide, by decide⟩
  · intro h
    unfold typeCodeMapper mapTypeCode
    rw [h]
    simp
  · intro c hc
    unfold typeCodeMapper mapTypeCode
    by_cases h0 : pyStrip s = ""
    · rw [h0] at hc
      rw [(by decide : lookupTM TYPE_MAP "" = (none : Option String))] at hc
      exact absurd hc (by simp)
    · rw [if_pos h0, hc]
      rfl
  · intro hn
    unfold typeCodeMapper mapTypeCode
    by_cases h0 : pyStrip s = ""
    · rw [if_neg (fun hne => hne h0), h0]
    · rw [if_pos h0, hn]
      rfl

/-- Witness for C4: a key of the table, a key padded with ASCII
whitespace, a key padded with a non-breaking space (Unicode whitespace is
stripped too), and an unmapped label. -/
theorem type_code_mapper_spec_witness :
    typeCodeMapper "TOWER" = "T" ∧ typeCodeMapper "  DEP  " = "D"
    ∧ typeCodeMapper "\u00A0TOWER" = "T" ∧ typeCodeMapper " XYZ " = "XYZ" :=
  ⟨(type_code_mapper_spec.1 "TOWER").2.1 "T" (by decide),
   (type_code_mapper_spec.1 "  DEP  ").2.1 "D" (by decide),
   (type_code_mapper_spec.1 "\u00A0TOWER").2.1 "T" (by decide),
   (type_code_mapper_spec.1 " XYZ ").2.2 (by decide)⟩

/-! ### Pipeline structure lemmas -/

theorem lookupAcc_eq_none_iff (d : List Acc) (j : String) :
    lookupAcc d j = none ↔ j ∉ d.map Acc.c := by
  induction d with
  | nil => simp [lookupAcc]
  | cons b d ih =>
    by_cases h : b.c = j
    · rw [lookupAcc, if_pos h]
      simp [h]
    · rw [lookupAcc, if_neg h]
      simp only [ih, List.map_cons, List.mem_cons, not_or]
      constructor
      · intro hnm
        exact ⟨fun hj => h hj.symm, hnm⟩
      · intro hnm
        exact hnm.2

theorem cmap_appendFreq (d : List Acc) (i : String) (e : FreqEntry) :
    (appendFreq d i e).map Acc.c = d.map Acc.c := by
  unfold appendFreq
  rw [List.map_map]
  apply List.map_congr_left
  intro a _
  by_cases h : a.c = i <;> simp [h]

theorem cmap_stepFreq (d : List Acc) (r : FRow) :
    (stepFreq d r).map Acc.c = d.map Acc.c := by
  unfold stepFreq
  by_cases hc : (lookupAcc d r.airport).isSome = true ∧ truthy r.frequency = true
  · rw [if_pos hc]
    cases hp : parseFloat r.frequency with
    | none => simp only [hp]
    | some v =>
      simp only [hp]
      cases hv : validateFreq v with
      | none => simp only [hv]
      | some k =>
        simp only [hv]
        exact cmap_appendFreq d r.airport _
  · rw [if_neg hc]

theorem cmap_attachFreqs (f : List FRow) :
    ∀ d, (attachFreqs d f).map Acc.c = d.map Acc.c := by
  induction f with
  | nil => intro d; rfl
  | cons r f ih =>
    intro d
    unfold attachFreqs at ih ⊢
    rw [List.foldl_cons, ih (stepFreq d r), cmap_stepFreq]

/-- **C5.** Every airport record in the final output has at least one
frequency entry: a record whose compacted frequency list is empty is
filtered out, whatever its code and coordinates. -/
theorem output_nonempty_freqs (aRows : List ARow) (fRows : List FRow) :
    (∀ r ∈ pipeline aRows fRows, r.f ≠ [])
    ∧ ∀ a : Acc, (finalizeRec a).f = [] → finalizeRec a ∉ pipeline aRows fRows := by
  constructor
  · intro r hr hcon
    unfold pipeline finalize at hr
    have h2 := (List.mem_filter.mp hr).2
    rw [hcon] at h2
    simp at h2
  · intro a ha hmem
    unfold pipeline finalize at hmem
    have h2 := (List.mem_filter.mp hmem).2
    rw [ha] at h2
    simp at h2

/-! ### Defective rows are skipped (claim C8 support) -/

theorem stepAirport_bad (d : List Acc) (r : ARow) (h : badARow r) :
    stepAirport d r = d := by
  have hrr : rowRec r = none := by
    unfold rowRec
    rcases h with h | h | h
    · rw [if_neg]
      intro hc
      exact hc.1 h
    · by_cases hc : r.icao ≠ "" ∧ truthy r.lat = true ∧ truthy r.lon = true
      · rw [if_pos hc, h]
      · rw [if_neg hc]
    · by_cases hc : r.icao ≠ "" ∧ truthy r.lat = true ∧ truthy r.lon = true
      · rw [if_pos hc, h]
        cases parseFloat r.lat <;> rfl
      · rw [if_neg hc]
  unfold stepAirport
  rw [hrr]

theorem stepFreq_bad (d : List Acc) (r : FRow) (h : badFRow d r) :
    stepFreq d r = d := by
  unfold stepFreq
  rcases h with h | h
  · rw [if_neg]
    intro hc
    rw [h] at hc
    exact absurd hc.1 (by simp)
  · by_cases hc : (lookupAcc d r.airport).isSome = true ∧ truthy r.frequency = true
    · rw [if_pos hc]
      cases hfreq : r.frequency with
      | absent =>
        rw [hfreq] at hc
        exact absurd hc.2 (by simp [truthy])
      | bad => rfl
      | val q =>
        rw [hfreq] at h
        have h' : validateFreq (toDouble q) = none := h
        simp only [parseFloat, h']
    · rw [if_neg hc]

theorem badFRow_attach (d : List Acc) (f₁ : List FRow) (r : FRow)
    (h : badFRow d r) : badFRow (attachFreqs d f₁) r := by
  rcases h with h | h
  · left
    rw [lookupAcc_eq_none_iff] at h ⊢
    rw [cmap_attachFreqs f₁ d]
    exact h
  · right
    exact h

/-- **C8.** A defective airport row (missing/empty field or unparseable
coordinate) or a defective frequency observation (unmatched airport code,
missing/unparseable frequency, or out-of-band value) is skipped on its
own: the pipeline's output on an input containing it equals the output on
the input with that row removed, and the run (a total function) never
aborts. -/
theorem bad_rows_skipped (a₁ a₂ : List ARow) (ar : ARow) (aRows : List ARow)
    (f₁ f₂ : List FRow) (fr : FRow) (fRows : List FRow) :
    (badARow ar → pipeline (a₁ ++ ar :: a₂) fRows = pipeline (a₁ ++ a₂) fRows)
    ∧ (badFRow (buildAirports aRows) fr →
        pipeline aRows (f₁ ++ fr :: f₂) = pipeline aRows (f₁ ++ f₂)) := by
  constructor
  · intro h
    unfold pipeline
    have hb : buildAirports (a₁ ++ ar :: a₂) = buildAirports (a₁ ++ a₂) := by
      unfold buildAirports
      rw [List.foldl_append, List.foldl_append, List.foldl_cons, stepAirport_bad _ ar h]
    rw [hb]
  · intro h
    unfold pipeline
    have ha : attachFreqs (buildAirports aRows) (f₁ ++ fr :: f₂)
        = attachFreqs (buildAirports aRows) (f₁ ++ f₂) := by
      unfold attachFreqs
      rw [List.foldl_append, List.foldl_append, List.foldl_cons]
      rw [stepFreq_bad (List.foldl stepFreq (buildAirports aRows) f₁) fr
        (badFRow_attach (buildAirports aRows) f₁ fr h)]
    rw [ha]

/-- Witness for C8: a row with all fields missing, and an observation
whose airport code matches no airport. -/
theorem bad_rows_skipped_witness :
    pipeline ([] ++ ARow.mk "" RawNum.absent RawNum.absent :: []) []
        = pipeline ([] ++ []) []
    ∧ pipeline [] ([] ++ FRow.mk "X" RawNum.absent "" :: [])
        = pipeline [] ([] ++ []) :=
  ⟨(bad_rows_skipped [] [] (ARow.mk "" RawNum.absent RawNum.absent) []
      [] [] (FRow.mk "X" RawNum.absent "") []).1 (Or.inl rfl),
   (bad_rows_skipped [] [] (ARow.mk "" RawNum.absent RawNum.absent) []
      [] [] (FRow.mk "X" RawNum.absent "") []).2 (Or.inl rfl)⟩

/-! ### The airports dict: duplicate codes, last row wins (claim C9 support) -/

theorem rowRec_c (r : ARow) (a : Acc) (h : rowRec r = some a) : a.c = r.icao := by
  unfold rowRec at h
  by_cases hc : r.icao ≠ "" ∧ truthy r.lat = true ∧ truthy r.lon = true
  · rw [if_pos hc] at h
    cases hla : parseFloat r.lat with
    | none =>
      rw [hla] at h
      cases hlo : parseFloat r.lon <;> rw [hlo] at h <;> simp at h
    | some la =>
      rw [hla] at h
      cases hlo : parseFloat r.lon with
      | none =>
        rw [hlo] at h
        simp at h
      | some lo =>
        rw [hlo] at h
        have ha : a = ⟨r.icao, (pround3 la, pround3 lo), []⟩ := (Option.some.inj h).symm
        rw [ha]
  · rw [if_neg hc] at h
    exact absurd h (by simp)

theorem lookupAcc_setAcc_self (d : List Acc) (i : String) (a : Acc) (ha : a.c = i) :
    lookupAcc (setAcc d i a) i = some a := by
  induction d with
  | nil => simp [setAcc, lookupAcc, ha]
  | cons b d ih =>
    by_cases h : b.c = i
    · rw [setAcc, if_pos h, lookupAcc, if_pos ha]
    · rw [setAcc, if_neg h, lookupAcc, if_neg h]
      exact ih

theorem lookupAcc_setAcc_ne (d : List Acc) (i j : String) (a : Acc)
    (h : j ≠ i) (ha : a.c = i) : lookupAcc (setAcc d i a) j = lookupAcc d j := by
  have hna : ¬ a.c = j := fun hc => h ((ha.symm.trans hc).symm)
  induction d with
  | nil => simp [setAcc, lookupAcc, hna]
  | cons b d ih =>
    by_cases hb : b.c = i
    · have hnb : ¬ b.c = j := fun hc => h ((hb.symm.trans hc).symm)
      rw [setAcc, if_pos hb, lookupAcc, if_neg hna, lookupAcc, if_neg hnb]
    · rw [setAcc, if_neg hb, lookupAcc, lookupAcc]
      by_cases hbj : b.c = j
      · rw [if_pos hbj, if_pos hbj]
      · rw [if_neg hbj, if_neg hbj]
        exact ih

theorem setAcc_of_none (d : List Acc) (i : String) (a : Acc)
    (h : lookupAcc d i = none) : setAcc d i a = d ++ [a] := by
  induction d with
  | nil => rfl
  | cons b d ih =>
    rw [lookupAcc] at h
    by_cases hb : b.c = i
    · rw [if_pos hb] at h
      exact absurd h (by simp)
    · rw [if_neg hb] at h
      rw [setAcc, if_neg hb, ih h]
      rfl

theorem cmap_setAcc_of_some (d : List Acc) (i : String) (a w : Acc)
    (h : lookupAcc d i = some w) (ha : a.c = i) :
    (setAcc d i a).map Acc.c = d.map Acc.c := by
  induction d with
  | nil =>
    rw [lookupAcc] at h
    exact absurd h (by simp)
  | cons b d ih =>
    rw [lookupAcc] at h
    by_cases hb : b.c = i
    · rw [setAcc, if_pos hb]
      simp only [List.map_cons]
      rw [ha, hb]
    · rw [if_neg hb] at h
      rw [setAcc, if_neg hb]
      simp only [List.map_cons]
      rw [ih h]

theorem nodup_cmap_setAcc (d : List Acc) (i : String) (a : Acc)
    (hnd : (d.map Acc.c).Nodup) (ha : a.c = i) :
    ((setAcc d i a).map Acc.c).Nodup := by
  cases h : lookupAcc d i with
  | none =>
    rw [setAcc_of_none d i a h, List.map_append, List.nodup_append]
    refine ⟨hnd, by simp, ?_⟩
    intro x hx hx'
    simp at hx'
    rw [hx', ha] at hx
    exact (lookupAcc_eq_none_iff d i).mp h hx
  | some w =>
    rw [cmap_setAcc_of_some d i a w h ha]
    exact hnd

theorem nodup_cmap_stepAirport (d : List Acc) (r : ARow)
    (hnd : (d.map Acc.c).Nodup) : ((stepAirport d r).map Acc.c).Nodup := by
  unfold stepAirport
  cases h : rowRec r with
  | none => exact hnd
  | some a => exact nodup_cmap_setAcc d r.icao a hnd (rowRec_c r a h)

theorem nodup_cmap_buildAirports (rows : List ARow) :
    ((buildAirports rows).map Acc.c).Nodup := by
  have key : ∀ d, (d.map Acc.c).Nodup → ((rows.foldl stepAirport d).map Acc.c).Nodup := by
    induction rows with
    | nil => intro d h; exact h
    | cons r rows ih =>
      intro d h
      rw [List.foldl_cons]
      exact ih _ (nodup_cmap_stepAirport d r h)
  exact key [] (by simp)

theorem nodup_pipeline_c (aRows : List ARow) (fRows : List FRow) :
    ((pipeline aRows fRows).map OutRec.c).Nodup := by
  unfold pipeline finalize
  have hsub : List.Sublist
      (((attachFreqs (buildAirports aRows) fRows).map finalizeRec).filter
        fun a => !a.f.isEmpty)
      ((attachFreqs (buildAirports aRows) fRows).map finalizeRec) :=
    List.filter_sublist _
  apply List.Nodup.sublist (hsub.map OutRec.c)
  rw [List.map_map]
  rw [show (OutRec.c ∘ finalizeRec) = Acc.c from funext fun a => rfl]
  rw [cmap_attachFreqs]
  exact nodup_cmap_buildAirports aRows

theorem lookupAcc_foldl_stepAirport (rows : List ARow) :
    ∀ d i, lookupAcc (rows.foldl stepAirport d) i =
      match (rows.filter fun r => (rowRec r).isSome && r.icao == i).getLast? with
      | some r => rowRec r
      | none => lookupAcc d i := by
  induction rows using List.reverseRecOn with
  | nil => intro d i; rfl
  | append_singleton rows r ih =>
    intro d i
    rw [List.foldl_append, List.foldl_cons, List.foldl_nil, List.filter_append]
    cases hsome : rowRec r with
    | none =>
      have hpred : ((rowRec r).isSome && r.icao == i) = false := by
        simp [hsome]
      rw [show (List.filter (fun r => (rowRec r).isSome && r.icao == i) [r]) = []
        from by simp [List.filter, hpred]]
      rw [List.append_nil]
      unfold stepAirport
      rw [hsome]
      exact ih d i
    | some a =>
      by_cases hi : r.icao = i
      · have hpred : ((rowRec r).isSome && r.icao == i) = true := by
          simp [hsome, hi]
        rw [show (List.filter (fun r => (rowRec r).isSome && r.icao == i) [r]) = [r]
          from by simp [List.filter, hpred]]
        rw [List.getLast?_concat]
        unfold stepAirport
        rw [hsome]
        rw [← hi, lookupAcc_setAcc_self _ r.icao a (rowRec_c r a hsome)]
        exact hsome.symm
      · have hpred : ((rowRec r).isSome && r.icao == i) = false := by
          simp [hsome, hi]
        rw [show (List.filter (fun r => (rowRec r).isSome && r.icao == i) [r]) = []
          from by simp [List.filter, hpred]]
        rw [List.append_nil]
        unfold stepAirport
        rw [hsome]
        rw [lookupAcc_setAcc_ne _ r.icao i a (fun hc => hi hc.symm) (rowRec_c r a hsome)]
        exact ih d i

/-- The `FreqEntry` a frequency row contributes when its airport code
matches an existing record (lines 52–63): `none` when the observation is
skipped (falsy frequency cell, parse failure, out-of-band value). -/
def rowEntry (r : FRow) : Option FreqEntry :=
  if truthy r.frequency then
    match parseFloat r.frequency with
    | none => none
    | some v =>
      match validateFreq v with
      | none => none
      | some k => some (if pyStrip r.typ ≠ "" then .typed k (pyStrip r.typ) else .plain k)
  else none

theorem appendFreq_cons (a : Acc) (d : List Acc) (i : String) (e : FreqEntry) :
    appendFreq (a :: d) i e =
      (if a.c = i then { a with f := a.f ++ [e] } else a) :: appendFreq d i e := rfl

theorem lookupAcc_appendFreq_self (d : List Acc) (i : String) (e : FreqEntry) (b : Acc)
    (hb : lookupAcc d i = some b) :
    lookupAcc (appendFreq d i e) i = some { b with f := b.f ++ [e] } := by
  induction d with
  | nil => exact absurd hb (by simp [lookupAcc])
  | cons a d ih =>
    rw [appendFreq_cons]
    by_cases h : a.c = i
    · rw [lookupAcc, if_pos h] at hb
      have hab := Option.some.inj hb
      rw [if_pos h, lookupAcc, if_pos (show ({ a with f := a.f ++ [e] } : Acc).c = i from h)]
      rw [← hab]
    · rw [lookupAcc, if_neg h] at hb
      rw [if_neg h, lookupAcc, if_neg h]
      exact ih hb

theorem lookupAcc_appendFreq_ne (d : List Acc) (i j : String) (e : FreqEntry)
    (hne : j ≠ i) : lookupAcc (appendFreq d i e) j = lookupAcc d j := by
  induction d with
  | nil => rfl
  | cons a d ih =>
    rw [appendFreq_cons]
    by_cases h : a.c = i
    · rw [if_pos h]
      rw [lookupAcc, if_neg (show ¬ ({ a with f := a.f ++ [e] } : Acc).c = j from
        fun hc => hne (hc.symm.trans h))]
      rw [lookupAcc, if_neg (show ¬ a.c = j from fun hc => hne (hc.symm.trans h))]
      exact ih
    · rw [if_neg h]
      by_cases hj : a.c = j
      · rw [lookupAcc, if_pos hj, lookupAcc, if_pos hj]
      · rw [lookupAcc, if_neg hj, lookupAcc, if_neg hj]
        exact ih

theorem lookupAcc_stepFreq_ne (d : List Acc) (r : FRow) (j : String)
    (hne : j ≠ r.airport) : lookupAcc (stepFreq d r) j = lookupAcc d j := by
  unfold stepFreq
  by_cases hc : (lookupAcc d r.airport).isSome = true ∧ truthy r.frequency = true
  · rw [if_pos hc]
    cases hp : parseFloat r.frequency with
    | none => rfl
    | some v =>
      cases hv : validateFreq v with
      | none => simp only [hv]
      | some k =>
        simp only [hv]
        exact lookupAcc_appendFreq_ne d r.airport j _ hne
  · rw [if_neg hc]

theorem stepFreq_of_rowEntry_some (d : List Acc) (r : FRow) (e : FreqEntry)
    (hl : (lookupAcc d r.airport).isSome = true) (he : rowEntry r = some e) :
    stepFreq d r = appendFreq d r.airport e := by
  unfold rowEntry at he
  by_cases ht : truthy r.frequency = true
  · rw [if_pos ht] at he
    unfold stepFreq
    rw [if_pos ⟨hl, ht⟩]
    cases hp : parseFloat r.frequency with
    | none =>
      simp only [hp] at he
      exact absurd he (by simp)
    | some v =>
      simp only [hp] at he
      cases hv : validateFreq v with
      | none =>
        simp only [hv] at he
        exact absurd he (by simp)
      | some k =>
        simp only [hv] at he
        simp only [hv]
        exact congrArg (appendFreq d r.airport) (Option.some.inj he)
  · rw [if_neg ht] at he
    exact absurd he (by simp)

theorem stepFreq_of_rowEntry_none (d : List Acc) (r : FRow)
    (he : rowEntry r = none) : stepFreq d r = d := by
  unfold rowEntry at he
  unfold stepFreq
  by_cases hc : (lookupAcc d r.airport).isSome = true ∧ truthy r.frequency = true
  · rw [if_pos hc]
    rw [if_pos hc.2] at he
    cases hp : parseFloat r.frequency with
    | none => rfl
    | some v =>
      simp only [hp] at he
      cases hv : validateFreq v with
      | none => simp only [hv]
      | some k =>
        simp only [hv] at he
        exact absurd he (by simp)
  · rw [if_neg hc]

/-- The frequency pass, restricted to one existing dict key: the record at
that key accumulates exactly the entries of the valid observations whose
airport code equals the key, in input order; all other rows leave it
unchanged. -/
theorem lookupAcc_attachFreqs (fRows : List FRow) :
    ∀ d i b, lookupAcc d i = some b →
      lookupAcc (attachFreqs d fRows) i =
        some { b with f := b.f ++ (fRows.filter fun r => r.airport == i).filterMap rowEntry } := by
  induction fRows with
  | nil =>
    intro d i b hb
    rw [attachFreqs, List.foldl_nil, List.filter_nil, List.filterMap_nil, List.append_nil]
    exact hb
  | cons r f ih =>
    intro d i b hb
    have hfold : attachFreqs d (r :: f) = attachFreqs (stepFreq d r) f := rfl
    rw [hfold]
    by_cases hri : r.airport = i
    · have hpred : (r.airport == i) = true := by simp [hri]
      have hfil : (r :: f).filter (fun r => r.airport == i)
          = r :: f.filter (fun r => r.airport == i) := by
        simp [List.filter_cons, hpred]
      cases he : rowEntry r with
      | some e =>
        have hl : (lookupAcc d r.airport).isSome = true := by
          rw [hri, hb]
          rfl
        rw [stepFreq_of_rowEntry_some d r e hl he]
        have hb2 : lookupAcc (appendFreq d r.airport e) i = some { b with f := b.f ++ [e] } := by
          rw [hri]
          exact lookupAcc_appendFreq_self d i e b hb
        rw [ih (appendFreq d r.airport e) i { b with f := b.f ++ [e] } hb2]
        rw [hfil, List.filterMap_cons]
        simp only [he]
        simp [List.append_assoc]
      | none =>
        rw [stepFreq_of_rowEntry_none d r he]
        rw [ih d i b hb]
        rw [hfil, List.filterMap_cons]
        simp only [he]
    · have hpred : (r.airport == i) = false := by simp [hri]
      have hfil : (r :: f).filter (fun r => r.airport == i)
          = f.filter (fun r => r.airport == i) := by
        simp [List.filter_cons, hpred]
      have hb2 : lookupAcc (stepFreq d r) i = some b := by
        rw [lookupAcc_stepFreq_ne d r i (fun hc => hri hc.symm)]
        exact hb
      rw [ih (stepFreq d r) i b hb2, hfil]

/-- **C9.** Several valid rows with the same ICAO code collapse to a
single record carrying the data of the last such row (the dict lookup
equals the record built from the last valid matching row); every frequency
observation for that code attaches to that single record — after the
frequency pass, the record at the key is the built record with exactly the
valid matching observations' entries appended, in input order, rows with
other codes leaving it untouched; and the final output never contains two
entries with the same code. -/
theorem duplicate_icao_last_wins (aRows : List ARow) (fRows : List FRow) (i : String) :
    (lookupAcc (buildAirports aRows) i =
      match (aRows.filter fun r => (rowRec r).isSome && r.icao == i).getLast? with
      | some r => rowRec r
      | none => none)
    ∧ (∀ b : Acc, lookupAcc (buildAirports aRows) i = some b →
        lookupAcc (attachFreqs (buildAirports aRows) fRows) i =
          some { b with f := b.f ++ (fRows.filter fun r => r.airport == i).filterMap rowEntry })
    ∧ ((pipeline aRows fRows).map OutRec.c).Nodup := by
  refine ⟨?_, ?_, ?_⟩
  · rw [buildAirports, lookupAcc_foldl_stepAirport aRows [] i]
    cases (aRows.filter fun r => (rowRec r).isSome && r.icao == i).getLast? <;> rfl
  · intro b hb
    exact lookupAcc_attachFreqs fRows (buildAirports aRows) i b hb
  · exact nodup_pipeline_c aRows fRows

/-! ### The dedup/compaction step only rewrites the frequency list (C10) -/

theorem mem_appendFreq (d : List Acc) (i : String) (e : FreqEntry) (a : Acc)
    (ha : a ∈ appendFreq d i e) : ∃ b ∈ d, b.c = a.c ∧ b.l = a.l := by
  unfold appendFreq at ha
  rcases List.mem_map.mp ha with ⟨b, hb, hba⟩
  refine ⟨b, hb, ?_, ?_⟩ <;> rw [← hba] <;> by_cases h : b.c = i <;> simp [h]

theorem mem_stepFreq_origin (d : List Acc) (r : FRow) (a : Acc)
    (ha : a ∈ stepFreq d r) : ∃ b ∈ d, b.c = a.c ∧ b.l = a.l := by
  unfold stepFreq at ha
  by_cases hc : (lookupAcc d r.airport).isSome = true ∧ truthy r.frequency = true
  · rw [if_pos hc] at ha
    cases hp : parseFloat r.frequency with
    | none =>
      rw [hp] at ha
      exact ⟨a, ha, rfl, rfl⟩
    | some v =>
      simp only [hp] at ha
      cases hv : validateFreq v with
      | none =>
        simp only [hv] at ha
        exact ⟨a, ha, rfl, rfl⟩
      | some k =>
        simp only [hv] at ha
        exact mem_appendFreq d r.airport _ a ha
  · rw [if_neg hc] at ha
    exact ⟨a, ha, rfl, rfl⟩

theorem attach_mem_origin (fRows : List FRow) :
    ∀ d a, a ∈ attachFreqs d fRows → ∃ b ∈ d, b.c = a.c ∧ b.l = a.l := by
  induction fRows with
  | nil => intro d a ha; exact ⟨a, ha, rfl, rfl⟩
  | cons r f ih =>
    intro d a ha
    rw [attachFreqs, List.foldl_cons] at ha
    obtain ⟨b, hb, hbc, hbl⟩ := ih (stepFreq d r) a ha
    obtain ⟨b0, hb0, hb0c, hb0l⟩ := mem_stepFreq_origin d r b hb
    exact ⟨b0, hb0, hb0c.trans hbc, hb0l.trans hbl⟩

/-! ### The KLAX end-to-end scenario (claim C3 and witnesses) -/

theorem stepFreq_hit (d : List Acc) (r : FRow) (v : ℚ) (k : ℤ)
    (hl : (lookupAcc d r.airport).isSome = true)
    (ht : truthy r.frequency = true)
    (hp : parseFloat r.frequency = some v)
    (hv : validateFreq v = some k) :
    stepFreq d r = appendFreq d r.airport
      (if pyStrip r.typ ≠ "" then .typed k (pyStrip r.typ) else .plain k) := by
  unfold stepFreq
  rw [if_pos ⟨hl, ht⟩]
  simp only [hp, hv]

theorem pround3_klax_lat : pround3 (toDouble (33.9425 : ℚ)) = (33.943 : ℚ) := by
  rw [toDouble_339425]
  norm_num [pround3, rndHalfEven]

theorem pround3_klax_lon : pround3 (toDouble (-118.408 : ℚ)) = (-118.408 : ℚ) := by
  rw [toDouble_neg_118408]
  norm_num [pround3, rndHalfEven]

theorem validateFreq_toDouble_1198 : validateFreq (toDouble (119.8 : ℚ)) = some 119800 := by
  rw [toDouble_1198]
  exact validateFreq_1198double

theorem rowRec_klax :
    rowRec (ARow.mk "KLAX" (RawNum.val (33.9425 : ℚ)) (RawNum.val (-118.408 : ℚ)))
      = some (Acc.mk "KLAX" ((33.943 : ℚ), (-118.408 : ℚ)) []) := by
  unfold rowRec
  rw [if_pos ⟨by decide, rfl, rfl⟩]
  simp only [parseFloat]
  rw [pround3_klax_lat, pround3_klax_lon]

theorem buildAirports_klax :
    buildAirports [ARow.mk "KLAX" (RawNum.val (33.9425 : ℚ)) (RawNum.val (-118.408 : ℚ))]
      = [Acc.mk "KLAX" ((33.943 : ℚ), (-118.408 : ℚ)) []] := by
  rw [buildAirports, List.foldl_cons, List.foldl_nil]
  unfold stepAirport
  rw [rowRec_klax]
  rfl

theorem stepFreq_klax1 :
    stepFreq [Acc.mk "KLAX" ((33.943 : ℚ), (-118.408 : ℚ)) []]
        (FRow.mk "KLAX" (RawNum.val (119.8 : ℚ)) "TOWER")
      = [Acc.mk "KLAX" ((33.943 : ℚ), (-118.408 : ℚ)) [FreqEntry.typed 119800 "TOWER"]] := by
  rw [stepFreq_hit [Acc.mk "KLAX" ((33.943 : ℚ), (-118.408 : ℚ)) []]
    (FRow.mk "KLAX" (RawNum.val (119.8 : ℚ)) "TOWER")
    (toDouble (119.8 : ℚ)) 119800 rfl rfl rfl validateFreq_toDouble_1198]
  rfl

theorem stepFreq_klax2 :
    stepFreq [Acc.mk "KLAX" ((33.943 : ℚ), (-118.408 : ℚ)) [FreqEntry.typed 119800 "TOWER"]]
        (FRow.mk "KLAX" (RawNum.val (119.8 : ℚ)) "")
      = [Acc.mk "KLAX" ((33.943 : ℚ), (-118.408 : ℚ))
          [FreqEntry.typed 119800 "TOWER", FreqEntry.plain 119800]] := by
  rw [stepFreq_hit
    [Acc.mk "KLAX" ((33.943 : ℚ), (-118.408 : ℚ)) [FreqEntry.typed 119800 "TOWER"]]
    (FRow.mk "KLAX" (RawNum.val (119.8 : ℚ)) "")
    (toDouble (119.8 : ℚ)) 119800 rfl rfl rfl validateFreq_toDouble_1198]
  rfl

theorem dedupStep_klax :
    dedupStep [FreqEntry.typed 119800 "TOWER", FreqEntry.plain 119800]
      = [FreqEntry.typed 119800 "TOWER"] := by
  unfold dedupStep
  rw [show ((buildDict [FreqEntry.typed 119800 "TOWER", FreqEntry.plain 119800]).map
      Prod.snd) = [FreqEntry.typed 119800 "TOWER"] from by decide]
  exact List.mergeSort_of_sorted (by simp)

theorem compactFreqs_klax :
    compactFreqs [FreqEntry.typed 119800 "TOWER", FreqEntry.plain 119800]
      = [OutEntry.arr 119800 "T"] := by
  rw [compactFreqs, dedupStep_klax]
  decide

/-- The full pipeline on the KLAX scenario. -/
theorem pipeline_klax_eval :
    pipeline [ARow.mk "KLAX" (RawNum.val (33.9425 : ℚ)) (RawNum.val (-118.408 : ℚ))]
        [FRow.mk "KLAX" (RawNum.val (119.8 : ℚ)) "TOWER",
         FRow.mk "KLAX" (RawNum.val (119.8 : ℚ)) ""]
      = [OutRec.mk "KLAX" ((33.943 : ℚ), (-118.408 : ℚ)) [OutEntry.arr 119800 "T"]] := by
  unfold pipeline
  rw [buildAirports_klax, attachFreqs, List.foldl_cons, stepFreq_klax1, List.foldl_cons,
    stepFreq_klax2, List.foldl_nil]
  unfold finalize
  rw [List.map_cons, List.map_nil]
  show (List.filter (fun a => !a.f.isEmpty)
    [OutRec.mk "KLAX" ((33.943 : ℚ), (-118.408 : ℚ))
      (compactFreqs [FreqEntry.typed 119800 "TOWER", FreqEntry.plain 119800])]) = _
  rw [compactFreqs_klax]
  rfl

/-- **C3.** The end-to-end scenario: one airport row KLAX (lat 33.9425,
lon -118.408) and two observations of 119.8 MHz, one labelled TOWER and
one unlabelled, produce exactly one record with code KLAX, location
[33.943, -118.408] and the single frequency entry [119800, "T"]. -/
theorem pipeline_klax_end_to_end :
    pipeline [ARow.mk "KLAX" (RawNum.val (33.9425 : ℚ)) (RawNum.val (-118.408 : ℚ))]
        [FRow.mk "KLAX" (RawNum.val (119.8 : ℚ)) "TOWER",
         FRow.mk "KLAX" (RawNum.val (119.8 : ℚ)) ""]
      = [OutRec.mk "KLAX" ((33.943 : ℚ), (-118.408 : ℚ)) [OutEntry.arr 119800 "T"]] :=
  pipeline_klax_eval

/-- **C10.** Every record of the final output keeps the code and the
coordinates of the record created for it in the airports dict: the
dedup/compaction step rewrites only the frequency list. -/
theorem dedup_frame (aRows : List ARow) (fRows : List FRow) :
    ∀ r ∈ pipeline aRows fRows, ∃ b ∈ buildAirports aRows, b.c = r.c ∧ b.l = r.l := by
  intro r hr
  unfold pipeline finalize at hr
  have hmem := (List.mem_filter.mp hr).1
  rcases List.mem_map.mp hmem with ⟨a, ha, hfa⟩
  obtain ⟨b, hb, hbc, hbl⟩ := attach_mem_origin fRows (buildAirports aRows) a ha
  refine ⟨b, hb, ?_, ?_⟩
  · rw [← hfa]
    exact hbc
  · rw [← hfa]
    exact hbl

theorem dedupStep_nil : dedupStep ([] : List FreqEntry) = [] := by
  unfold dedupStep
  rw [show ((buildDict ([] : List FreqEntry)).map Prod.snd) = [] from rfl]
  exact List.mergeSort_of_sorted (by simp)

theorem compactFreqs_nil : compactFreqs ([] : List FreqEntry) = [] := by
  rw [compactFreqs, dedupStep_nil]
  rfl

theorem finalizeRec_f_nil (s : String) (p : ℚ × ℚ) :
    (finalizeRec (Acc.mk s p [])).f = [] :=
  compactFreqs_nil

/-- Witness for C5: the KLAX output record has a frequency, and a record
with no surviving frequency is not in the (empty-input) output. -/
theorem output_nonempty_freqs_witness :
    (OutRec.mk "KLAX" ((33.943 : ℚ), (-118.408 : ℚ)) [OutEntry.arr 119800 "T"]).f ≠ []
    ∧ finalizeRec (Acc.mk "X" ((0:ℚ), (0:ℚ)) []) ∉ pipeline [] [] :=
  ⟨(output_nonempty_freqs
      [ARow.mk "KLAX" (RawNum.val (33.9425 : ℚ)) (RawNum.val (-118.408 : ℚ))]
      [FRow.mk "KLAX" (RawNum.val (119.8 : ℚ)) "TOWER",
       FRow.mk "KLAX" (RawNum.val (119.8 : ℚ)) ""]).1
      (OutRec.mk "KLAX" ((33.943 : ℚ), (-118.408 : ℚ)) [OutEntry.arr 119800 "T"])
      (by rw [pipeline_klax_eval]; exact List.mem_singleton_self _),
   (output_nonempty_freqs [] []).2 (Acc.mk "X" ((0:ℚ), (0:ℚ)) [])
      (finalizeRec_f_nil "X" ((0:ℚ), (0:ℚ)))⟩

/-- Witness for C10 at the KLAX scenario. -/
theorem dedup_frame_witness :
    ∃ b ∈ buildAirports
        [ARow.mk "KLAX" (RawNum.val (33.9425 : ℚ)) (RawNum.val (-118.408 : ℚ))],
      b.c = (OutRec.mk "KLAX" ((33.943 : ℚ), (-118.408 : ℚ)) [OutEntry.arr 119800 "T"]).c
      ∧ b.l = (OutRec.mk "KLAX" ((33.943 : ℚ), (-118.408 : ℚ)) [OutEntry.arr 119800 "T"]).l :=
  dedup_frame
    [ARow.mk "KLAX" (RawNum.val (33.9425 : ℚ)) (RawNum.val (-118.408 : ℚ))]
    [FRow.mk "KLAX" (RawNum.val (119.8 : ℚ)) "TOWER",
     FRow.mk "KLAX" (RawNum.val (119.8 : ℚ)) ""]
    (OutRec.mk "KLAX" ((33.943 : ℚ), (-118.408 : ℚ)) [OutEntry.arr 119800 "T"])
    (by rw [pipeline_klax_eval]; exact List.mem_singleton_self _)

theorem rowEntry_val (a : String) (q : ℚ) (t : String) :
    rowEntry (FRow.mk a (RawNum.val q) t) =
      match validateFreq (toDouble q) with
      | none => none
      | some k => some (if pyStrip t ≠ "" then .typed k (pyStrip t) else .plain k) := rfl

theorem rowEntry_klax_typed :
    rowEntry (FRow.mk "KLAX" (RawNum.val (119.8 : ℚ)) "TOWER")
      = some (FreqEntry.typed 119800 "TOWER") := by
  rw [rowEntry_val]
  simp only [validateFreq_toDouble_1198]
  rfl

theorem rowEntry_klax_plain :
    rowEntry (FRow.mk "KLAX" (RawNum.val (119.8 : ℚ)) "")
      = some (FreqEntry.plain 119800) := by
  rw [rowEntry_val]
  simp only [validateFreq_toDouble_1198]
  rfl

/-- Witness for C9 at the KLAX scenario: both observations attach to the
single KLAX record. -/
theorem duplicate_icao_last_wins_witness :
    lookupAcc (attachFreqs (buildAirports
        [ARow.mk "KLAX" (RawNum.val (33.9425 : ℚ)) (RawNum.val (-118.408 : ℚ))])
        [FRow.mk "KLAX" (RawNum.val (119.8 : ℚ)) "TOWER",
         FRow.mk "KLAX" (RawNum.val (119.8 : ℚ)) ""]) "KLAX"
      = some (Acc.mk "KLAX" ((33.943 : ℚ), (-118.408 : ℚ))
          [FreqEntry.typed 119800 "TOWER", FreqEntry.plain 119800]) := by
  have h := (duplicate_icao_last_wins
      [ARow.mk "KLAX" (RawNum.val (33.9425 : ℚ)) (RawNum.val (-118.408 : ℚ))]
      [FRow.mk "KLAX" (RawNum.val (119.8 : ℚ)) "TOWER",
       FRow.mk "KLAX" (RawNum.val (119.8 : ℚ)) ""] "KLAX").2.1
      (Acc.mk "KLAX" ((33.943 : ℚ), (-118.408 : ℚ)) [])
      (by rw [buildAirports_klax]; rfl)
  rw [h]
  rw [show List.filter (fun r => r.airport == "KLAX")
      [FRow.mk "KLAX" (RawNum.val (119.8 : ℚ)) "TOWER",
       FRow.mk "KLAX" (RawNum.val (119.8 : ℚ)) ""]
    = [FRow.mk "KLAX" (RawNum.val (119.8 : ℚ)) "TOWER",
       FRow.mk "KLAX" (RawNum.val (119.8 : ℚ)) ""] from rfl]
  simp only [List.filterMap_cons, rowEntry_klax_typed, rowEntry_klax_plain,
    List.filterMap_nil]
  rfl

end AirportDownload
